/-
Verification of the bitonic sorting engine in `src/include/bitonic.hpp`.

The container handed to an executor (`std::span<T>`) is modelled as a list
`l : List α` over a linear order; inside the engine the mutable storage is a
total function `v : ℕ → α` (`ofList l`), and the result is read back from the
first `l.length` cells (`readOut`).  Loops become `List.foldl` over `List.range`
enumerations in the source's iteration order.  Sizes and indices are modelled
as `ℕ`: every arithmetic operation performed by the source on an in-range
container (`size = 2^k`) stays within the machine-integer range, so no wrap
around is introduced.  Throwing `std::runtime_error` is modelled by returning
the untouched container together with `some message`; a normal return carries
`none`.

Device execution is modelled by its data-flow semantics: `run_boilerplate`
copies the container to the buffer and back unchanged, and a chain of kernel
dispatches (each waiting on the previous event) is the sequential composition
of the per-layer functions.  Inside one layer the work items act on pairwise
disjoint index pairs, and a work item in the upper half of its block performs
no write, so folding the per-item bodies over `i = 0, 1, ..., size-1` is an
exact model of the parallel layer.  The `__local` segment of `local_presort`
is modelled by its home slice of the buffer: the kernel loads
`segment[local_i] = buff[global_i]` on entry, writes it back on exit, and in
between touches only local cells, with a barrier after every sub-layer, so
`segment[x]` is identified with `buff[group * SEGMENT_SIZE + x]`.
-/
import Mathlib

namespace BitonicSpec

/-! ## Bit utilities (`std::popcount`, `std::countr_zero` on `unsigned`) -/

/-- Fuelled helper for `popcount`; the first argument is fuel (any value at
least the bit count of `n` is enough, and `popcount` hands it `n` itself). -/
def pcount : ℕ → ℕ → ℕ
  | 0, _ => 0
  | f + 1, n => if n = 0 then 0 else n % 2 + pcount f (n / 2)

/-- `std::popcount (n)`: number of one bits of `n`. -/
def popcount (n : ℕ) : ℕ := pcount n n

/-- Fuelled helper for `countr_zero`. -/
def ctz_aux : ℕ → ℕ → ℕ
  | 0, _ => 0
  | f + 1, n => if n % 2 = 1 then 0 else ctz_aux f (n / 2) + 1

/-- `std::countr_zero (n)` on a 32-bit `unsigned`: the number of trailing zero
bits, and the full width 32 when `n = 0`. -/
def countr_zero (n : ℕ) : ℕ := if n = 0 then 32 else ctz_aux n n

/-! ## Storage model -/

variable {α : Type} [LinearOrder α]


/-- The container's storage as a total function on cell indices. -/
def ofList [Inhabited α] (l : List α) : ℕ → α := fun i => l.getD i default

/-- Read the first `n` cells back into a list. -/
def readOut (n : ℕ) (v : ℕ → α) : List α := (List.range n).map v

/-- `if (first > second) std::swap(first, second);` on cells `i`, `j`. -/
def cswap (i j : ℕ) (v : ℕ → α) : ℕ → α :=
  if v j < v i then fun k => if k = i then v j else if k = j then v i else v k else v

/-- The guarded swap of both device kernels: swap cells `i`, `j` when they are
out of order with respect to the direction `increasing`. -/
def cswapD (increasing : Bool) (i j : ℕ) (v : ℕ → α) : ℕ → α :=
  if (decide (v j < v i) && increasing) || (decide (v i < v j) && !increasing) then
    fun k => if k = i then v j else if k = j then v i else v k
  else v

/-! ## `cpu_bitonic_sort` (sequential executor) -/

/-- `calc_j` of `cpu_bitonic_sort::operator()::execute_step`. -/
def calc_j (stage step part_length i : ℕ) : ℕ :=
  if stage = step then part_length - i - 1 else i + part_length / 2

/-- One compare-swap layer of the sequential executor. -/
def execute_step (size stage step : ℕ) (v : ℕ → α) : ℕ → α :=
  let part_length := 2 ^ (step + 1)
  (List.range (size / part_length)).foldl (fun v k =>
    (List.range (part_length / 2)).foldl (fun v i =>
      cswap (k * part_length + i) (k * part_length + calc_j stage step part_length i) v) v) v

/-- The stage/step double loop of `cpu_bitonic_sort::operator()` (the inner
loop runs `step = stage, stage-1, ..., 0` via `step = stage - (++temp)`). -/
def cpu_run (size : ℕ) (v : ℕ → α) : ℕ → α :=
  let stages := countr_zero size
  (List.range stages).foldl (fun v stage =>
    (List.range (stage + 1)).foldl (fun v temp =>
      execute_step size stage (stage - temp) v) v) v

/-- `cpu_bitonic_sort::operator()`: validate the size, then run the network.
The second component is the thrown error message, if any. -/
def cpu_bitonic_sort [Inhabited α] (l : List α) : List α × Option String :=
  let size := l.length
  if popcount size ≠ 1 ∨ size < 2 then
    (l, some "Only power-of-two sequences are supported")
  else
    (readOut size (cpu_run size (ofList l)), none)

/-! ## `naive_bitonic` (naive device executor)

The kernel's signature is `naive_bitonic(__global TYPE *buff, int step, int
stage)`, while the host submits `m_functor(args, buf, stage, step)`: the
host's `stage` is bound to the kernel parameter named `step` and the host's
`step` to the parameter named `stage`.  `naive_bitonic_kernel` below keeps the
kernel's own parameter names and order; the binding swap happens at the call
site in `naive_bitonic_run`, as in the source. -/

/-- One dispatch of the `naive_bitonic` kernel over global ids
`i = 0, ..., size-1` (kernel parameter order: `step`, then `stage`). -/
def naive_bitonic_kernel (step stage size : ℕ) (v : ℕ → α) : ℕ → α :=
  (List.range size).foldl (fun v i =>
    let seq_len := 2 ^ (stage + 1)
    let power_of_two := 2 ^ (step - stage)
    let seq_n := i / seq_len
    let odd := seq_n / power_of_two
    let increasing : Bool := decide (odd % 2 = 0)
    let halflen := seq_len / 2
    if i < seq_len * seq_n + halflen then
      cswapD increasing i (i + halflen) v
    else v) v

/-- The dispatch loop of `naive_bitonic::operator()`: one kernel launch per
host `(stage, step)` pair, each waiting on the previous one; the host call
`m_functor(args, buf, stage, step)` binds host `stage` to kernel `step`. -/
def naive_bitonic_run (size : ℕ) (v : ℕ → α) : ℕ → α :=
  let stages := countr_zero size
  (List.range stages).foldl (fun v stage =>
    (List.range (stage + 1)).foldl (fun v temp =>
      naive_bitonic_kernel stage (stage - temp) size v) v) v

/-- `naive_bitonic::operator()` with `run_boilerplate`'s copy-in/copy-out. -/
def naive_bitonic [Inhabited α] (l : List α) : List α × Option String :=
  let size := l.length
  if popcount size ≠ 1 ∨ size < 2 then
    (l, some "Only power-of-two sequences are supported")
  else
    (readOut size (naive_bitonic_run size (ofList l)), none)

/-! ## `local_bitonic` (local-segment device executor) -/

/-- `x - 1` on a 32-bit `unsigned` (the host computes `nfst - 1`). -/
def usub1 (x : ℕ) : ℕ := (x + 4294967295) % 4294967296

/-- One `(step, stage)` sub-layer of the `local_presort` kernel, between two
local-memory barriers.  Work item `global_i` belongs to group
`global_i / segment_size` and has `local_i = global_i % segment_size`; the
segment cell `segment[x]` is the buffer cell `group * segment_size + x`.  The
comparison index arithmetic uses the local index `i = local_i`, while the
direction `increasing` divides the global index, as in the kernel source. -/
def local_presort_layer (segment_size step stage size : ℕ) (v : ℕ → α) : ℕ → α :=
  (List.range size).foldl (fun v global_i =>
    let local_i := global_i % segment_size
    let group := global_i / segment_size
    let i := local_i
    let seq_len := 2 ^ (stage + 1)
    let power_of_two := 2 ^ (step - stage)
    let seq_n := i / seq_len
    let odd := (global_i / seq_len) / power_of_two
    let increasing : Bool := decide (odd % 2 = 0)
    let halflen := seq_len / 2
    if i < seq_len * seq_n + halflen then
      cswapD increasing (group * segment_size + i) (group * segment_size + (i + halflen)) v
    else v) v

/-- The fused loop nest of the `local_presort` kernel:
`for (step = step_start; step < step_end; ++step)
   for (stage = step; stage >= 0; --stage)` with a barrier after each
sub-layer. -/
def local_presort (segment_size step_start step_end size : ℕ) (v : ℕ → α) : ℕ → α :=
  (List.range' step_start (step_end - step_start)).foldl (fun v step =>
    (List.range (step + 1)).foldl (fun v temp =>
      local_presort_layer segment_size step (step - temp) size v) v) v

/-- The argument pairs `(step_start, step_end)` of the kernel dispatches
issued by `local_bitonic::operator()`: `submit` is called exactly once, with
`(0, std::min(nfst - 1, steps_n))` computed in `unsigned` arithmetic. -/
def local_dispatches (segment_size size : ℕ) : List (ℕ × ℕ) :=
  let steps_n := countr_zero size
  let nfst := countr_zero segment_size
  [(0, min (usub1 nfst) steps_n)]

/-- `local_bitonic::operator()` for an executor built with `segment_size`. -/
def local_bitonic [Inhabited α] (segment_size : ℕ) (l : List α) : List α × Option String :=
  let size := l.length
  if popcount size ≠ 1 ∨ size < 2 then
    (l, some "Only power-of-two sequences are supported")
  else
    (readOut size
      ((local_dispatches segment_size size).foldl (fun v args =>
        local_presort segment_size args.1 args.2 size v) (ofList l)), none)

/-! ## Compare-swap semantics

A layer of any of the three executors applies guarded swaps to pairwise
disjoint index pairs; `applyCmps` is the common shape, and `applyCmps_at`
evaluates it pointwise. -/

/-- Value kept in the lower cell of a comparator with direction `inc`. -/
def dlo (inc : Bool) (x y : α) : α := if inc then min x y else max x y

/-- Value kept in the upper cell of a comparator with direction `inc`. -/
def dhi (inc : Bool) (x y : α) : α := if inc then max x y else min x y

/-- Apply a list of comparators `(direction, lower cell, upper cell)`. -/
def applyCmps (cs : List (Bool × ℕ × ℕ)) (v : ℕ → α) : ℕ → α :=
  cs.foldl (fun v c => cswapD c.1 c.2.1 c.2.2 v) v

/-- Two comparators touch disjoint cells. -/
def cDisj (c c' : Bool × ℕ × ℕ) : Prop :=
  c.2.1 ≠ c'.2.1 ∧ c.2.1 ≠ c'.2.2 ∧ c.2.2 ≠ c'.2.1 ∧ c.2.2 ≠ c'.2.2

/-! ## The three layer kinds as comparator lists -/

/-- The comparators of one `execute_step` layer, in loop order. -/
def cpuPairs (size stage step : ℕ) : List (Bool × ℕ × ℕ) :=
  (List.range (size / 2 ^ (step + 1))).flatMap (fun k =>
    (List.range (2 ^ (step + 1) / 2)).map (fun i =>
      (true, k * 2 ^ (step + 1) + i, k * 2 ^ (step + 1) + calc_j stage step (2 ^ (step + 1)) i)))

/-- The comparators of one executed `naive_bitonic` kernel dispatch: the work
items that pass the lower-half guard, each comparing `i` with `i + halflen`. -/
def naivePairs (size step stage : ℕ) : List (Bool × ℕ × ℕ) :=
  ((List.range size).filter (fun i =>
    decide (i < 2 ^ (stage + 1) * (i / 2 ^ (stage + 1)) + 2 ^ (stage + 1) / 2))).map (fun i =>
      (decide (i / 2 ^ (stage + 1) / 2 ^ (step - stage) % 2 = 0), i, i + 2 ^ (stage + 1) / 2))

/-- The comparators of one `(step, stage)` sub-layer of `local_presort`:
work item `global_i` compares the segment cells `local_i`, `local_i + halflen`
of its group, with the direction taken from the global index. -/
def localPairs (segment_size size step stage : ℕ) : List (Bool × ℕ × ℕ) :=
  ((List.range size).filter (fun g =>
    decide (g % segment_size <
      2 ^ (stage + 1) * (g % segment_size / 2 ^ (stage + 1)) + 2 ^ (stage + 1) / 2))).map (fun g =>
      (decide (g / 2 ^ (stage + 1) / 2 ^ (step - stage) % 2 = 0),
        g / segment_size * segment_size + g % segment_size,
        g / segment_size * segment_size + (g % segment_size + 2 ^ (stage + 1) / 2)))

/-! ## Layer enumeration of the sequential executor -/

/-- The `(stage, step)` pairs traversed by `cpu_bitonic_sort::operator()`, in
program order. -/
def cpuLayers (stages : ℕ) : List (ℕ × ℕ) :=
  (List.range stages).flatMap (fun stage =>
    (List.range (stage + 1)).map (fun temp => (stage, stage - temp)))

/-! ## Abstract pointwise layers

Each executor layer acts on pairwise-disjoint cell pairs, so it has a
pointwise description; the sortedness proofs work on these forms. -/

/-- Ascending compare-exchange at distance `2^t` inside `2^(t+1)` blocks. -/
def ascLayer (t : ℕ) (v : ℕ → α) : ℕ → α := fun x =>
  if x % 2 ^ (t + 1) < 2 ^ t then min (v x) (v (x + 2 ^ t))
  else max (v (x - 2 ^ t)) (v x)

/-- Descending compare-exchange at distance `2^t` inside `2^(t+1)` blocks. -/
def descLayer (t : ℕ) (v : ℕ → α) : ℕ → α := fun x =>
  if x % 2 ^ (t + 1) < 2 ^ t then max (v x) (v (x + 2 ^ t))
  else min (v (x - 2 ^ t)) (v x)

/-- The stage-defining reversal layer of the sequential executor: the partner
of offset `r` inside a `2^(s+1)` block is the mirrored offset
`2^(s+1) - 1 - r`, and comparisons are always ascending. -/
def revLayer (s : ℕ) (v : ℕ → α) : ℕ → α := fun x =>
  if x % 2 ^ (s + 1) < 2 ^ s then
    min (v x) (v (x / 2 ^ (s + 1) * 2 ^ (s + 1) + (2 ^ (s + 1) - 1 - x % 2 ^ (s + 1))))
  else max (v (x / 2 ^ (s + 1) * 2 ^ (s + 1) + (2 ^ (s + 1) - 1 - x % 2 ^ (s + 1)))) (v x)

/-- The device-kernel layer for host pair `(s, t)`: distance `2^t`, with the
direction alternating between consecutive `2^(s+1)` blocks. -/
def dirLayer (s t : ℕ) (v : ℕ → α) : ℕ → α := fun x =>
  if x / 2 ^ (s + 1) % 2 = 0 then ascLayer t v x else descLayer t v x

/-- Ascending cleanup: layers `t, t-1, ..., 0`. -/
def ascClean : ℕ → (ℕ → α) → (ℕ → α)
  | 0, v => ascLayer 0 v
  | t + 1, v => ascClean t (ascLayer (t + 1) v)

/-- Descending cleanup: layers `t, t-1, ..., 0`. -/
def descClean : ℕ → (ℕ → α) → (ℕ → α)
  | 0, v => descLayer 0 v
  | t + 1, v => descClean t (descLayer (t + 1) v)

/-- Device-network steps `t, t-1, ..., 0` of stage `s`. -/
def dirSteps (s : ℕ) : ℕ → (ℕ → α) → (ℕ → α)
  | 0, v => dirLayer s 0 v
  | t + 1, v => dirSteps s t (dirLayer s (t + 1) v)

/-- One abstract stage of the sequential executor: the reversal layer, then
the ascending cleanup of the two halves. -/
def cpuStage : ℕ → (ℕ → α) → (ℕ → α)
  | 0, v => revLayer 0 v
  | s + 1, v => ascClean s (revLayer (s + 1) v)

/-- Stages `0, ..., s-1` of the sequential network. -/
def cpuNet : ℕ → (ℕ → α) → (ℕ → α)
  | 0, v => v
  | s + 1, v => cpuStage s (cpuNet s v)

/-- One abstract stage of the device networks. -/
def naiveStage (s : ℕ) (v : ℕ → α) : ℕ → α := dirSteps s s v

/-- Stages `0, ..., s-1` of the device network. -/
def naiveNet : ℕ → (ℕ → α) → (ℕ → α)
  | 0, v => v
  | s + 1, v => naiveStage s (naiveNet s v)

/-! ## Order predicates on index windows -/

/-- Non-descending on the window `[a, b)`. -/
def AscOn (v : ℕ → α) (a b : ℕ) : Prop := ∀ i j, a ≤ i → i ≤ j → j < b → v i ≤ v j

/-- Non-ascending on the window `[a, b)`. -/
def DescOn (v : ℕ → α) (a b : ℕ) : Prop := ∀ i j, a ≤ i → i ≤ j → j < b → v j ≤ v i

/-- Agreement on the window `[a, b)`. -/
def EqOn (v w : ℕ → α) (a b : ℕ) : Prop := ∀ x, a ≤ x → x < b → v x = w x

/-- On the window `[a, b)`, the true cells are exactly `[c, d)`. -/
def MountainOn (v : ℕ → Bool) (a b : ℕ) : Prop :=
  ∃ c d, ∀ x, a ≤ x → x < b → (v x = true ↔ (c ≤ x ∧ x < d))

/-- On the window `[a, b)`, the false cells are exactly `[c, d)`. -/
def ValleyOn (v : ℕ → Bool) (a b : ℕ) : Prop :=
  ∃ c d, ∀ x, a ≤ x → x < b → (v x = false ↔ (c ≤ x ∧ x < d))

/-- Cyclically bitonic boolean window. -/
def MovOn (v : ℕ → Bool) (a b : ℕ) : Prop := MountainOn v a b ∨ ValleyOn v a b

/-! ## Permutation: every layer rearranges the first `n` cells -/

def swapFun (i j : ℕ) : ℕ → ℕ := fun k => if k = i then j else if k = j then i else k

/-! ## Claimed kernel variants, transcribed from the specification text -/

/-- The naive kernel layer exactly as the specification words it for a host
`(stage, step)` pair: `pow2 = 2 ^ (step - stage)`. -/
def naiveClaimLayer (stage step size : ℕ) (v : ℕ → α) : ℕ → α :=
  (List.range size).foldl (fun v i =>
    let seq_len := 2 ^ (step + 1)
    let power_of_two := 2 ^ (step - stage)
    let seq_n := i / seq_len
    let odd := seq_n / power_of_two
    let increasing : Bool := decide (odd % 2 = 0)
    let halflen := seq_len / 2
    if i < seq_len * seq_n + halflen then cswapD increasing i (i + halflen) v else v) v

/-- The amended wording for a host `(stage, step)` pair: because the host
binds its `stage` to the kernel's `step` parameter and vice versa, the
executed exponent is `pow2 = 2 ^ (stage - step)`. -/
def naiveAmendedLayer (stage step size : ℕ) (v : ℕ → α) : ℕ → α :=
  (List.range size).foldl (fun v i =>
    let seq_len := 2 ^ (step + 1)
    let power_of_two := 2 ^ (stage - step)
    let seq_n := i / seq_len
    let odd := seq_n / power_of_two
    let increasing : Bool := decide (odd % 2 = 0)
    let halflen := seq_len / 2
    if i < seq_len * seq_n + halflen then cswapD increasing i (i + halflen) v else v) v

/-- The comparison direction the naive kernel computes at element index `i`. -/
def naive_increasing (step stage i : ℕ) : Bool :=
  decide (i / 2 ^ (stage + 1) / 2 ^ (step - stage) % 2 = 0)

/-- The comparison direction the local-segment kernel computes, taken from
the work item's global index. -/
def local_increasing (step stage global_i : ℕ) : Bool :=
  decide (global_i / 2 ^ (stage + 1) / 2 ^ (step - stage) % 2 = 0)

theorem pcount_congr : ∀ n f g, n ≤ f → n ≤ g → pcount f n = pcount g n := by
  intro n
  induction n using Nat.strong_induction_on with
  | _ n ih =>
    intro f g hf hg
    match f, g with
    | f + 1, g + 1 =>
      by_cases h0 : n = 0
      · simp [pcount, h0]
      · have hlt : n / 2 < n := Nat.div_lt_self (Nat.pos_of_ne_zero h0) one_lt_two
        have h2f : n / 2 ≤ f := by omega
        have h2g : n / 2 ≤ g := by omega
        simp only [pcount, h0, if_false]
        rw [ih (n / 2) hlt (f) (g) h2f h2g]
    | 0, 0 => rfl
    | 0, g + 1 =>
      have : n = 0 := Nat.le_zero.mp hf
      simp [pcount, this]
    | f + 1, 0 =>
      have : n = 0 := Nat.le_zero.mp hg
      simp [pcount, this]

theorem popcount_zero : popcount 0 = 0 := rfl

theorem popcount_succ_fuel (f n : ℕ) (h : n ≤ f) : pcount (f + 1) n = pcount n n := by
  exact pcount_congr n (f + 1) n (by omega) le_rfl

theorem popcount_eq_zero {n : ℕ} (h : popcount n = 0) : n = 0 := by
  induction n using Nat.strong_induction_on with
  | _ n ih =>
    match n with
    | 0 => rfl
    | n + 1 =>
      exfalso
      unfold popcount at h
      simp only [pcount, Nat.succ_ne_zero, if_false] at h
      have hdle : (n + 1) / 2 ≤ n := by omega
      have hm : (n + 1) % 2 = 0 := by omega
      have hp : pcount n ((n + 1) / 2) = 0 := by omega
      have hpc : popcount ((n + 1) / 2) = 0 := by
        unfold popcount
        rw [pcount_congr ((n + 1) / 2) ((n + 1) / 2) n le_rfl hdle]
        exact hp
      have := ih ((n + 1) / 2) (by omega) hpc
      omega

theorem popcount_two_mul {n : ℕ} (hn : 0 < n) : popcount (2 * n) = popcount n := by
  obtain ⟨m, hm⟩ : ∃ m, 2 * n = m + 1 := ⟨2 * n - 1, by omega⟩
  unfold popcount
  rw [hm]
  simp only [pcount, Nat.succ_ne_zero, if_false]
  have h2 : (m + 1) % 2 = 0 := by omega
  have h3 : (m + 1) / 2 = n := by omega
  rw [h2, h3, pcount_congr n m n (by omega) le_rfl]
  omega

theorem popcount_pow (k : ℕ) : popcount (2 ^ k) = 1 := by
  induction k with
  | zero => rfl
  | succ k ih =>
    have : (2 : ℕ) ^ (k + 1) = 2 * 2 ^ k := by ring
    rw [this, popcount_two_mul (Nat.pos_pow_of_pos k two_pos)]
    exact ih

theorem popcount_eq_one {n : ℕ} (h : popcount n = 1) : ∃ k, n = 2 ^ k := by
  induction n using Nat.strong_induction_on with
  | _ n ih =>
    match n with
    | 0 => simp [popcount_zero] at h
    | n + 1 =>
      unfold popcount at h
      simp only [pcount, Nat.succ_ne_zero, if_false] at h
      rcases Nat.even_or_odd (n + 1) with he | ho
      · have hmod : (n + 1) % 2 = 0 := Nat.even_iff.mp he
        rw [hmod] at h
        have hdle : (n + 1) / 2 ≤ n := by omega
        have hpc : popcount ((n + 1) / 2) = 1 := by
          unfold popcount
          rw [pcount_congr ((n + 1) / 2) ((n + 1) / 2) n le_rfl hdle]
          omega
        obtain ⟨k, hk⟩ := ih ((n + 1) / 2) (by omega) hpc
        exact ⟨k + 1, by omega⟩
      · have hmod : (n + 1) % 2 = 1 := Nat.odd_iff.mp ho
        rw [hmod] at h
        have hpc : pcount n ((n + 1) / 2) = 0 := by omega
        have hdle : (n + 1) / 2 ≤ n := by omega
        have : popcount ((n + 1) / 2) = 0 := by
          unfold popcount
          rw [pcount_congr ((n + 1) / 2) ((n + 1) / 2) n le_rfl hdle]
          exact hpc
        have hz : (n + 1) / 2 = 0 := popcount_eq_zero this
        have : n = 0 := by omega
        exact ⟨0, by omega⟩

/-- The source's validity test `popcount size = 1 ∧ 2 ≤ size` says exactly
that the size is a power of two with positive exponent. -/
theorem valid_size_iff (n : ℕ) :
    (popcount n = 1 ∧ 2 ≤ n) ↔ ∃ k, 1 ≤ k ∧ n = 2 ^ k := by
  constructor
  · rintro ⟨h1, h2⟩
    obtain ⟨k, hk⟩ := popcount_eq_one h1
    match k with
    | 0 => omega
    | k + 1 => exact ⟨k + 1, by omega, hk⟩
  · rintro ⟨k, hk1, rfl⟩
    refine ⟨popcount_pow k, ?_⟩
    calc 2 = 2 ^ 1 := rfl
    _ ≤ 2 ^ k := Nat.pow_le_pow_right two_pos hk1

theorem ctz_aux_congr : ∀ n f g, n ≤ f → n ≤ g → 0 < n → ctz_aux f n = ctz_aux g n := by
  intro n
  induction n using Nat.strong_induction_on with
  | _ n ih =>
    intro f g hf hg hpos
    match f, g with
    | f + 1, g + 1 =>
      by_cases h1 : n % 2 = 1
      · simp [ctz_aux, h1]
      · have hlt : n / 2 < n := Nat.div_lt_self hpos one_lt_two
        have hdpos : 0 < n / 2 := by omega
        simp only [ctz_aux, h1, if_false]
        rw [ih (n / 2) hlt f g (by omega) (by omega) hdpos]
    | 0, g => exact absurd hf (by omega)
    | f + 1, 0 => exact absurd hg (by omega)

theorem countr_zero_pow (k : ℕ) : countr_zero (2 ^ k) = k := by
  induction k with
  | zero => rfl
  | succ k ih =>
    have hkpos : 0 < (2 : ℕ) ^ k := Nat.pos_pow_of_pos _ two_pos
    have h2 : (2 : ℕ) ^ (k + 1) = 2 * 2 ^ k := by ring
    obtain ⟨m, hm⟩ : ∃ m, (2 : ℕ) ^ (k + 1) = m + 1 := ⟨2 ^ (k + 1) - 1, by omega⟩
    have hne : (2 : ℕ) ^ (k + 1) ≠ 0 := by positivity
    unfold countr_zero
    simp only [hne, if_false]
    rw [hm]
    have hmod : (m + 1) % 2 = 0 := by omega
    have hmodne : ¬ (m + 1) % 2 = 1 := by omega
    have hdiv : (m + 1) / 2 = 2 ^ k := by omega
    simp only [ctz_aux, hmodne, if_false, hdiv]
    have hkle : 2 ^ k ≤ m := by omega
    rw [ctz_aux_congr (2 ^ k) m (2 ^ k) hkle le_rfl hkpos]
    have hk0 : (2 : ℕ) ^ k ≠ 0 := by positivity
    unfold countr_zero at ih
    simp only [hk0, if_false] at ih
    omega

theorem cswap_eq_cswapD (i j : ℕ) (v : ℕ → α) : cswap i j v = cswapD true i j v := by
  unfold cswap cswapD
  simp

theorem cswapD_untouched {x i j : ℕ} (inc : Bool) (v : ℕ → α)
    (h1 : x ≠ i) (h2 : x ≠ j) : cswapD inc i j v x = v x := by
  unfold cswapD
  split
  · simp [h1, h2]
  · rfl

theorem cswapD_apply (inc : Bool) (i j x : ℕ) (v : ℕ → α) (hij : i ≠ j) :
    cswapD inc i j v x =
      if x = i then dlo inc (v i) (v j) else if x = j then dhi inc (v i) (v j) else v x := by
  unfold cswapD dlo dhi
  rcases lt_trichotomy (v i) (v j) with h | h | h
  · have h1 : decide (v j < v i) = false := decide_eq_false (not_lt.mpr h.le)
    have h2 : decide (v i < v j) = true := decide_eq_true h
    cases inc
    · simp only [h1, h2, Bool.and_false, Bool.not_false, Bool.and_true, Bool.false_or,
        if_true]
      by_cases hx : x = i
      · simp [hx, max_eq_right h.le]
      · by_cases hy : x = j
        · simp [hx, hy, Ne.symm hij, min_eq_left h.le]
        · simp [hx, hy]
    · simp only [h1, h2, Bool.and_true, Bool.not_true, Bool.and_false, Bool.or_false,
        if_neg (Bool.false_ne_true)]
      by_cases hx : x = i
      · simp [hx, min_eq_left h.le]
      · by_cases hy : x = j
        · simp [hx, hy, Ne.symm hij, max_eq_right h.le]
        · simp [hx, hy]
  · have h1 : decide (v j < v i) = false := decide_eq_false (by rw [h]; exact lt_irrefl _)
    have h2 : decide (v i < v j) = false := decide_eq_false (by rw [h]; exact lt_irrefl _)
    simp only [h1, h2, Bool.false_and, Bool.and_comm, Bool.or_self, Bool.false_or]
    cases inc
    · simp only [Bool.false_and, if_neg (Bool.false_ne_true)]
      by_cases hx : x = i
      · simp [hx, h, min_self, max_self]
      · by_cases hy : x = j
        · simp [hx, hy, h, min_self, max_self]
        · simp [hx, hy]
    · simp only [Bool.false_and, if_neg (Bool.false_ne_true)]
      by_cases hx : x = i
      · simp [hx, h, min_self, max_self]
      · by_cases hy : x = j
        · simp [hx, hy, h, min_self, max_self]
        · simp [hx, hy]
  · have h1 : decide (v j < v i) = true := decide_eq_true h
    have h2 : decide (v i < v j) = false := decide_eq_false (not_lt.mpr h.le)
    cases inc
    · simp only [h1, h2, Bool.and_false, Bool.false_or, if_neg (Bool.false_ne_true)]
      by_cases hx : x = i
      · simp [hx, max_eq_left h.le]
      · by_cases hy : x = j
        · simp [hx, hy, Ne.symm hij, min_eq_right h.le]
        · simp [hx, hy]
    · simp only [h1, h2, Bool.true_and, Bool.and_false, Bool.or_false, if_true]
      by_cases hx : x = i
      · simp [hx, Ne.symm hij, min_eq_right h.le]
      · by_cases hy : x = j
        · simp [hx, hy, Ne.symm hij, max_eq_left h.le]
        · simp [hx, hy]

theorem applyCmps_untouched {x : ℕ} :
    ∀ (cs : List (Bool × ℕ × ℕ)) (v : ℕ → α), (∀ c ∈ cs, x ≠ c.2.1 ∧ x ≠ c.2.2) →
      applyCmps cs v x = v x := by
  intro cs
  induction cs with
  | nil => intro v _; rfl
  | cons c cs ih =>
    intro v h
    have hx := h c (List.mem_cons_self c cs)
    have hrest : ∀ c' ∈ cs, x ≠ c'.2.1 ∧ x ≠ c'.2.2 :=
      fun c' hc' => h c' (List.mem_cons_of_mem c hc')
    show applyCmps cs (cswapD c.1 c.2.1 c.2.2 v) x = v x
    rw [ih _ hrest]
    exact cswapD_untouched c.1 v hx.1 hx.2

theorem applyCmps_at {b : Bool} {i j : ℕ} :
    ∀ (cs : List (Bool × ℕ × ℕ)) (v : ℕ → α), cs.Pairwise cDisj →
      (∀ c ∈ cs, c.2.1 ≠ c.2.2) → (b, i, j) ∈ cs →
      applyCmps cs v i = dlo b (v i) (v j) ∧ applyCmps cs v j = dhi b (v i) (v j) := by
  intro cs
  induction cs with
  | nil => intro v _ _ hmem; cases hmem
  | cons c cs ih =>
    intro v hpw hne hmem
    have hpw' := List.pairwise_cons.mp hpw
    rcases List.mem_cons.mp hmem with heq | hmem'
    · subst heq
      have hij : i ≠ j := hne _ (List.mem_cons_self _ _)
      have hrest_i : ∀ c' ∈ cs, i ≠ c'.2.1 ∧ i ≠ c'.2.2 := by
        intro c' hc'
        have := hpw'.1 c' hc'
        exact ⟨this.1, this.2.1⟩
      have hrest_j : ∀ c' ∈ cs, j ≠ c'.2.1 ∧ j ≠ c'.2.2 := by
        intro c' hc'
        have := hpw'.1 c' hc'
        exact ⟨this.2.2.1, this.2.2.2⟩
      constructor
      · show applyCmps cs (cswapD b i j v) i = _
        rw [applyCmps_untouched cs _ hrest_i, cswapD_apply b i j i v hij]
        simp
      · show applyCmps cs (cswapD b i j v) j = _
        rw [applyCmps_untouched cs _ hrest_j, cswapD_apply b i j j v hij]
        simp [Ne.symm hij]
    · have hd := hpw'.1 _ hmem'
      have hvi : cswapD c.1 c.2.1 c.2.2 v i = v i :=
        cswapD_untouched c.1 v (Ne.symm hd.1) (Ne.symm hd.2.2.1)
      have hvj : cswapD c.1 c.2.1 c.2.2 v j = v j :=
        cswapD_untouched c.1 v (Ne.symm hd.2.1) (Ne.symm hd.2.2.2)
      have := ih (cswapD c.1 c.2.1 c.2.2 v) hpw'.2
        (fun c' hc' => hne c' (List.mem_cons_of_mem c hc')) hmem'
      rw [hvi, hvj] at this
      exact this

/-! ## Fold bookkeeping -/

theorem foldl_flat {β γ : Type} (f : (ℕ → α) → γ → (ℕ → α)) (g : β → List γ) :
    ∀ (l : List β) (v : ℕ → α),
      (l.flatMap g).foldl f v = l.foldl (fun acc x => (g x).foldl f acc) v := by
  intro l
  induction l with
  | nil => intro v; rfl
  | cons x l ih =>
    intro v
    rw [List.flatMap_cons, List.foldl_append, List.foldl_cons, ih]

theorem foldl_guard {β : Type} (p : β → Prop) [DecidablePred p] (f : (ℕ → α) → β → (ℕ → α)) :
    ∀ (l : List β) (v : ℕ → α),
      l.foldl (fun acc x => if p x then f acc x else acc) v
        = (l.filter (fun x => decide (p x))).foldl f v := by
  intro l
  induction l with
  | nil => intro v; rfl
  | cons x l ih =>
    intro v
    by_cases hp : p x
    · have hd : (fun y => decide (p y)) x = true := decide_eq_true hp
      simp only [List.foldl_cons, if_pos hp, List.filter_cons, hd, if_true, ih]
    · have hd : (fun y => decide (p y)) x = false := decide_eq_false hp
      simp only [List.foldl_cons, if_neg hp, List.filter_cons, hd, Bool.false_eq_true,
        if_false, ih]

/-- Pairwise relation on a flattened list of chunks, from pairwise relations
inside each chunk and across distinct chunks. -/
theorem pairwise_flat {β γ : Type} {R : β → β → Prop} {g : γ → List β} :
    ∀ (l : List γ), l.Nodup → (∀ x ∈ l, (g x).Pairwise R) →
      (∀ x y, x ∈ l → y ∈ l → x ≠ y → ∀ a ∈ g x, ∀ b ∈ g y, R a b) →
      (l.flatMap g).Pairwise R := by
  intro l
  induction l with
  | nil => intro _ _ _; simp
  | cons x l ih =>
    intro hnd hin hacross
    rw [List.flatMap_cons, List.pairwise_append]
    refine ⟨hin x (List.mem_cons_self x l), ?_, ?_⟩
    · exact ih (List.nodup_cons.mp hnd).2
        (fun y hy => hin y (List.mem_cons_of_mem x hy))
        (fun y z hy hz => hacross y z (List.mem_cons_of_mem x hy) (List.mem_cons_of_mem x hz))
    · intro a ha b hb
      obtain ⟨y, hy, hby⟩ := List.mem_flatMap.mp hb
      have hxy : x ≠ y := by
        intro h
        exact (List.nodup_cons.mp hnd).1 (h ▸ hy)
      exact hacross x y (List.mem_cons_self x l) (List.mem_cons_of_mem x hy) hxy a ha b hby

theorem execute_step_eq (size stage step : ℕ) (v : ℕ → α) :
    execute_step size stage step v = applyCmps (cpuPairs size stage step) v := by
  unfold execute_step cpuPairs applyCmps
  rw [foldl_flat]
  simp only [List.foldl_map, cswap_eq_cswapD]

theorem naive_kernel_eq (step stage size : ℕ) (v : ℕ → α) :
    naive_bitonic_kernel step stage size v = applyCmps (naivePairs size step stage) v := by
  unfold naive_bitonic_kernel naivePairs applyCmps
  rw [foldl_guard
    (fun i => i < 2 ^ (stage + 1) * (i / 2 ^ (stage + 1)) + 2 ^ (stage + 1) / 2)]
  simp only [List.foldl_map]

theorem local_layer_eq (segment_size step stage size : ℕ) (v : ℕ → α) :
    local_presort_layer segment_size step stage size v
      = applyCmps (localPairs segment_size size step stage) v := by
  unfold local_presort_layer localPairs applyCmps
  rw [foldl_guard
    (fun g => g % segment_size <
      2 ^ (stage + 1) * (g % segment_size / 2 ^ (stage + 1)) + 2 ^ (stage + 1) / 2)]
  simp only [List.foldl_map]

/-! ## Index arithmetic of the layers -/

theorem pow_succ_two (t : ℕ) : 2 ^ (t + 1) = 2 * 2 ^ t := by ring

theorem pow_succ_div_two (t : ℕ) : 2 ^ (t + 1) / 2 = 2 ^ t := by
  have h := pow_succ_two t
  omega

theorem calc_j_bounds (stage step i : ℕ) (hi : i < 2 ^ step) :
    2 ^ step ≤ calc_j stage step (2 ^ (step + 1)) i
    ∧ calc_j stage step (2 ^ (step + 1)) i < 2 ^ (step + 1) := by
  have h2 := pow_succ_two step
  have h3 := pow_succ_div_two step
  have h1 : (0 : ℕ) < 2 ^ step := Nat.pos_pow_of_pos _ two_pos
  unfold calc_j
  split <;> omega

theorem calc_j_inj (stage step i i' : ℕ) (hi : i < 2 ^ step) (hi' : i' < 2 ^ step)
    (hne : i ≠ i') :
    calc_j stage step (2 ^ (step + 1)) i ≠ calc_j stage step (2 ^ (step + 1)) i' := by
  have h2 := pow_succ_two step
  have h3 := pow_succ_div_two step
  unfold calc_j
  split <;> omega

theorem block_ne {B k l x y : ℕ} (hk : k ≠ l) (hx : x < B) (hy : y < B) :
    k * B + x ≠ l * B + y := by
  intro h
  have hB : 0 < B := lt_of_le_of_lt (Nat.zero_le x) hx
  have e1 : (k * B + x) / B = k := by
    rw [Nat.add_comm, Nat.add_mul_div_right x k hB, Nat.div_eq_of_lt hx, Nat.zero_add]
  have e2 : (l * B + y) / B = l := by
    rw [Nat.add_comm, Nat.add_mul_div_right y l hB, Nat.div_eq_of_lt hy, Nat.zero_add]
  rw [← e1, ← e2, h] at hk
  exact hk rfl

theorem mod_block_ne {B h g g' : ℕ} (hB : B = 2 * h) (hpos : 0 < h)
    (hg : g % B < h) (hg' : g' % B < h) : g ≠ g' + h := by
  intro he
  have h1 : (g' + h) % B = g' % B + h := by
    conv_lhs => rw [← Nat.div_add_mod g' B, Nat.add_assoc, Nat.mul_add_mod]
    exact Nat.mod_eq_of_lt (by omega)
  rw [he, h1] at hg
  omega

theorem cpuPairs_pairwise (size stage step : ℕ) :
    (cpuPairs size stage step).Pairwise cDisj := by
  unfold cpuPairs
  apply pairwise_flat _ (List.nodup_range _)
  · intro k _
    rw [List.pairwise_map]
    refine List.Pairwise.imp_of_mem ?_ (List.pairwise_lt_range _)
    intro i i' hi hi' hlt
    rw [List.mem_range, pow_succ_div_two] at hi hi'
    have hb := calc_j_bounds stage step i hi
    have hb' := calc_j_bounds stage step i' hi'
    have hj := calc_j_inj stage step i i' hi hi' (Nat.ne_of_lt hlt)
    dsimp only [cDisj]
    omega
  · intro k l hk hl hkl a ha b hb
    rw [List.mem_map] at ha hb
    obtain ⟨i, hi, rfl⟩ := ha
    obtain ⟨i', hi', rfl⟩ := hb
    rw [List.mem_range, pow_succ_div_two] at hi hi'
    have hb1 := calc_j_bounds stage step i hi
    have hb2 := calc_j_bounds stage step i' hi'
    have h2 := pow_succ_two step
    dsimp only [cDisj]
    exact ⟨block_ne hkl (by omega) (by omega), block_ne hkl (by omega) (by omega),
      block_ne hkl (by omega) (by omega), block_ne hkl (by omega) (by omega)⟩

theorem cpuPairs_ne (size stage step : ℕ) :
    ∀ c ∈ cpuPairs size stage step, c.2.1 ≠ c.2.2 := by
  intro c hc
  unfold cpuPairs at hc
  rw [List.mem_flatMap] at hc
  obtain ⟨k, _, hc⟩ := hc
  rw [List.mem_map] at hc
  obtain ⟨i, hi, rfl⟩ := hc
  rw [List.mem_range, pow_succ_div_two] at hi
  have hb := calc_j_bounds stage step i hi
  simp only [ne_eq, Nat.add_right_cancel_iff]
  omega

theorem cpuPairs_mem (size stage step k i : ℕ) (hk : k < size / 2 ^ (step + 1))
    (hi : i < 2 ^ step) :
    (true, k * 2 ^ (step + 1) + i,
      k * 2 ^ (step + 1) + calc_j stage step (2 ^ (step + 1)) i) ∈ cpuPairs size stage step := by
  unfold cpuPairs
  rw [List.mem_flatMap]
  refine ⟨k, List.mem_range.mpr hk, ?_⟩
  rw [List.mem_map]
  exact ⟨i, List.mem_range.mpr (by rw [pow_succ_div_two]; exact hi), rfl⟩

theorem naivePairs_pairwise (size step stage : ℕ) :
    (naivePairs size step stage).Pairwise cDisj := by
  unfold naivePairs
  rw [List.pairwise_map]
  have hpf : (((List.range size)).filter (fun i =>
      decide (i < 2 ^ (stage + 1) * (i / 2 ^ (stage + 1)) + 2 ^ (stage + 1) / 2))).Pairwise
        (fun a b => a < b) :=
    List.Pairwise.sublist (List.filter_sublist _) (List.pairwise_lt_range size)
  refine List.Pairwise.imp_of_mem ?_ hpf
  intro g g' hg hg' hlt
  rw [List.mem_filter] at hg hg'
  have hgu := of_decide_eq_true hg.2
  have hgu' := of_decide_eq_true hg'.2
  have hdm := Nat.div_add_mod g (2 ^ (stage + 1))
  have hdm' := Nat.div_add_mod g' (2 ^ (stage + 1))
  have h2 := pow_succ_two stage
  have h3 := pow_succ_div_two stage
  have hmod : g % 2 ^ (stage + 1) < 2 ^ (stage + 1) / 2 := by omega
  have hmod' : g' % 2 ^ (stage + 1) < 2 ^ (stage + 1) / 2 := by omega
  have hB : 2 ^ (stage + 1) = 2 * (2 ^ (stage + 1) / 2) := by omega
  have hpos : 0 < 2 ^ (stage + 1) / 2 := by
    have := Nat.pos_pow_of_pos stage two_pos
    omega
  have hne1 : g ≠ g' + 2 ^ (stage + 1) / 2 := mod_block_ne hB hpos hmod hmod'
  have hne2 : g' ≠ g + 2 ^ (stage + 1) / 2 := mod_block_ne hB hpos hmod' hmod
  dsimp only [cDisj]
  omega

theorem naivePairs_ne (size step stage : ℕ) :
    ∀ c ∈ naivePairs size step stage, c.2.1 ≠ c.2.2 := by
  intro c hc
  unfold naivePairs at hc
  rw [List.mem_map] at hc
  obtain ⟨g, _, rfl⟩ := hc
  have h2 := pow_succ_two stage
  have h3 := pow_succ_div_two stage
  have := Nat.pos_pow_of_pos stage two_pos
  dsimp only
  omega

theorem naivePairs_mem (size step stage x : ℕ) (hx : x < size)
    (hlow : x % 2 ^ (stage + 1) < 2 ^ (stage + 1) / 2) :
    (decide (x / 2 ^ (stage + 1) / 2 ^ (step - stage) % 2 = 0), x, x + 2 ^ (stage + 1) / 2)
      ∈ naivePairs size step stage := by
  unfold naivePairs
  rw [List.mem_map]
  refine ⟨x, ?_, rfl⟩
  rw [List.mem_filter, List.mem_range]
  refine ⟨hx, decide_eq_true ?_⟩
  have hdm := Nat.div_add_mod x (2 ^ (stage + 1))
  omega

theorem cpu_run_eq_layers (size : ℕ) (v : ℕ → α) :
    cpu_run size v
      = (cpuLayers (countr_zero size)).foldl (fun w p => execute_step size p.1 p.2 w) v := by
  unfold cpu_run cpuLayers
  rw [foldl_flat]
  simp only [List.foldl_map]

theorem map_sub_range (s : ℕ) :
    (List.range (s + 1)).map (fun temp => s - temp) = (List.range (s + 1)).reverse := by
  apply List.ext_getElem
  · simp
  · intro idx h1 h2
    simp only [List.getElem_map, List.getElem_range, List.getElem_reverse, List.length_range]
    omega

theorem sum_range_add_one (k : ℕ) :
    2 * ((List.range k).map (fun s => s + 1)).sum = k * (k + 1) := by
  induction k with
  | zero => rfl
  | succ k ih =>
    rw [List.range_succ, List.map_append, List.sum_append]
    have hr : (k + 1) * (k + 1 + 1) = k * (k + 1) + 2 * (k + 1) := by ring
    simp only [List.map_cons, List.map_nil, List.sum_cons, List.sum_nil]
    omega

/-! ## Claims C10, C2, C7, C6 -/

/-- C10: in the sequential executor, for every stage `s < log2 N`, step
`t ≤ s`, block index `bk < N / 2^(t+1)` and offset `i < 2^t`, both accessed
indices `bk*2^(t+1) + i` and `bk*2^(t+1) + calc_j i` lie in `[0, N)` for
`N = 2^k`, and the two cells of each compare-swap are distinct: every
container access of `execute_step` is in bounds and no swap is a self-swap. -/
theorem C10_sequential_index_safety (k s t bk i : ℕ) (hs : s < k) (ht : t ≤ s)
    (hbk : bk < 2 ^ k / 2 ^ (t + 1)) (hi : i < 2 ^ t) :
    bk * 2 ^ (t + 1) + i < 2 ^ k
    ∧ bk * 2 ^ (t + 1) + calc_j s t (2 ^ (t + 1)) i < 2 ^ k
    ∧ bk * 2 ^ (t + 1) + calc_j s t (2 ^ (t + 1)) i ≠ bk * 2 ^ (t + 1) + i := by
  have hdvd : 2 ^ (t + 1) ∣ 2 ^ k := pow_dvd_pow 2 (by omega)
  have hmul : 2 ^ k / 2 ^ (t + 1) * 2 ^ (t + 1) = 2 ^ k := Nat.div_mul_cancel hdvd
  have hb := calc_j_bounds s t i hi
  have h2 := pow_succ_two t
  have hsucc : (bk + 1) * 2 ^ (t + 1) ≤ 2 ^ k / 2 ^ (t + 1) * 2 ^ (t + 1) :=
    Nat.mul_le_mul_right _ (by omega)
  have hdist : (bk + 1) * 2 ^ (t + 1) = bk * 2 ^ (t + 1) + 2 ^ (t + 1) := by ring
  omega

theorem C10_witness :
    1 < 3 ∧ 0 ≤ 1 ∧ 1 < 2 ^ 3 / 2 ^ (0 + 1) ∧ 0 < 2 ^ 0
    ∧ (1 * 2 ^ (0 + 1) + 0 < 2 ^ 3
      ∧ 1 * 2 ^ (0 + 1) + calc_j 1 0 (2 ^ (0 + 1)) 0 < 2 ^ 3
      ∧ 1 * 2 ^ (0 + 1) + calc_j 1 0 (2 ^ (0 + 1)) 0 ≠ 1 * 2 ^ (0 + 1) + 0) :=
  ⟨by decide, by decide, by decide, by decide,
    C10_sequential_index_safety 3 1 0 1 0 (by decide) (by decide) (by decide) (by decide)⟩

/-- C2: every executor raises the invalid-input-size error exactly when the
container length is not a power of two with exponent at least one (that is,
not a power of two, or below 2), and when the error is raised the container
is returned unmodified; on a power-of-two length of at least 2 no error is
raised. -/
theorem C2_invalid_input_size [Inhabited α] (segment_size : ℕ) (l : List α) :
    ((cpu_bitonic_sort l).2.isSome = true ↔ ¬ ∃ k, 1 ≤ k ∧ l.length = 2 ^ k)
    ∧ ((naive_bitonic l).2.isSome = true ↔ ¬ ∃ k, 1 ≤ k ∧ l.length = 2 ^ k)
    ∧ ((local_bitonic segment_size l).2.isSome = true ↔ ¬ ∃ k, 1 ≤ k ∧ l.length = 2 ^ k)
    ∧ ((cpu_bitonic_sort l).2.isSome = true → (cpu_bitonic_sort l).1 = l)
    ∧ ((naive_bitonic l).2.isSome = true → (naive_bitonic l).1 = l)
    ∧ ((local_bitonic segment_size l).2.isSome = true → (local_bitonic segment_size l).1 = l) := by
  by_cases hc : popcount l.length ≠ 1 ∨ l.length < 2
  · have hnv : ¬ ∃ k, 1 ≤ k ∧ l.length = 2 ^ k := by
      rw [← valid_size_iff]
      omega
    simp only [cpu_bitonic_sort, naive_bitonic, local_bitonic, if_pos hc]
    simp [hnv]
  · have hv : ∃ k, 1 ≤ k ∧ l.length = 2 ^ k := by
      rw [← valid_size_iff]
      omega
    simp only [cpu_bitonic_sort, naive_bitonic, local_bitonic, if_neg hc]
    simp [hv]

theorem C2_witness :
    (cpu_bitonic_sort ([1, 2, 3] : List ℕ)).2.isSome = true
    ∧ (naive_bitonic ([1, 2, 3] : List ℕ)).1 = [1, 2, 3]
    ∧ (local_bitonic 4 ([1, 2, 3] : List ℕ)).2.isSome = true
    ∧ (cpu_bitonic_sort ([0, 1, 2, 3] : List ℕ)).2.isSome = false := by
  have hne : ¬ ∃ k, 1 ≤ k ∧ ([1, 2, 3] : List ℕ).length = 2 ^ k := by
    rintro ⟨k, hk1, hk2⟩
    norm_num at hk2
    have hd : (2 : ℕ) ∣ 2 ^ k := dvd_pow_self 2 (by omega)
    rw [← hk2] at hd
    omega
  have hyes : ∃ k, 1 ≤ k ∧ ([0, 1, 2, 3] : List ℕ).length = 2 ^ k := ⟨2, by norm_num⟩
  refine ⟨(C2_invalid_input_size 4 [1, 2, 3]).1.mpr hne,
    (C2_invalid_input_size 4 [1, 2, 3]).2.2.2.2.1
      ((C2_invalid_input_size 4 [1, 2, 3]).2.1.mpr hne),
    (C2_invalid_input_size 4 [1, 2, 3]).2.2.1.mpr hne, ?_⟩
  have h4 := (C2_invalid_input_size 4 [0, 1, 2, 3]).1
  rcases hb : (cpu_bitonic_sort ([0, 1, 2, 3] : List ℕ)).2.isSome with _ | _
  · rfl
  · exact absurd hyes (h4.mp hb)

/-- C7: for `N = 2^k`, `k ≥ 1`, the sequential run is the fold of
`execute_step` over the layer list `cpuLayers k`, which enumerates exactly
the stages `s ∈ [0, k)` and, inside stage `s`, the steps `s, s-1, ..., 0`
(the reverse of `range (s+1)`), for a total of `k*(k+1)/2` layers. -/
theorem C7_sequential_layer_count (k : ℕ) (hk : 1 ≤ k) (v : ℕ → α) :
    cpu_run (2 ^ k) v
      = (cpuLayers k).foldl (fun w p => execute_step (2 ^ k) p.1 p.2 w) v
    ∧ cpuLayers k
      = (List.range k).flatMap (fun s => ((List.range (s + 1)).reverse).map (fun t => (s, t)))
    ∧ (cpuLayers k).length = k * (k + 1) / 2 := by
  refine ⟨?_, ?_, ?_⟩
  · rw [cpu_run_eq_layers, countr_zero_pow]
  · unfold cpuLayers
    have hf : (fun stage => (List.range (stage + 1)).map (fun temp => (stage, stage - temp)))
        = (fun s => ((List.range (s + 1)).reverse).map (fun t => ((s : ℕ), t))) := by
      funext sg
      rw [← map_sub_range, List.map_map]
      rfl
    rw [hf]
  · unfold cpuLayers
    rw [List.length_flatMap]
    simp only [Function.comp_def, List.length_map, List.length_range]
    have hs := sum_range_add_one k
    have hmap : (List.map (fun stage => stage + 1) (List.range k))
        = (List.map (fun s => s + 1) (List.range k)) := rfl
    omega

theorem C7_witness :
    1 ≤ 2
    ∧ (cpu_run (2 ^ 2) (ofList ([3, 1, 2, 0] : List ℕ))
        = (cpuLayers 2).foldl (fun w p => execute_step (2 ^ 2) p.1 p.2 w)
            (ofList ([3, 1, 2, 0] : List ℕ))
      ∧ cpuLayers 2
        = (List.range 2).flatMap (fun s => ((List.range (s + 1)).reverse).map (fun t => (s, t)))
      ∧ (cpuLayers 2).length = 2 * (2 + 1) / 2) :=
  ⟨by decide, C7_sequential_layer_count 2 (by decide) (ofList ([3, 1, 2, 0] : List ℕ))⟩

/-- C6: a step `t` of stage `s` partitions the sequence into blocks of length
`2^(t+1)`; the partner of offset `i < 2^t` is `2^t * 2 - i - 1` when `s = t`
and `i + 2^t` otherwise, and the two cells are swapped exactly when the lower
one holds the larger value. -/
theorem C6_sequential_partner_swap (size s t bk i : ℕ) (v : ℕ → α)
    (hbk : bk < size / 2 ^ (t + 1)) (hi : i < 2 ^ t) :
    calc_j s t (2 ^ (t + 1)) i = (if s = t then 2 ^ t * 2 - i - 1 else i + 2 ^ t)
    ∧ execute_step size s t v (bk * 2 ^ (t + 1) + i)
      = (if v (bk * 2 ^ (t + 1) + calc_j s t (2 ^ (t + 1)) i) < v (bk * 2 ^ (t + 1) + i)
        then v (bk * 2 ^ (t + 1) + calc_j s t (2 ^ (t + 1)) i)
        else v (bk * 2 ^ (t + 1) + i))
    ∧ execute_step size s t v (bk * 2 ^ (t + 1) + calc_j s t (2 ^ (t + 1)) i)
      = (if v (bk * 2 ^ (t + 1) + calc_j s t (2 ^ (t + 1)) i) < v (bk * 2 ^ (t + 1) + i)
        then v (bk * 2 ^ (t + 1) + i)
        else v (bk * 2 ^ (t + 1) + calc_j s t (2 ^ (t + 1)) i)) := by
  have h2 := pow_succ_two t
  have h3 := pow_succ_div_two t
  refine ⟨?_, ?_⟩
  · unfold calc_j
    split <;> omega
  · have hmem := cpuPairs_mem size s t bk i hbk hi
    obtain ⟨h1, h4⟩ := applyCmps_at (cpuPairs size s t) v
      (cpuPairs_pairwise size s t) (cpuPairs_ne size s t) hmem
    rw [execute_step_eq, h1, h4]
    simp only [dlo, dhi, eq_self_iff_true, if_true]
    rcases lt_or_le (v (bk * 2 ^ (t + 1) + calc_j s t (2 ^ (t + 1)) i))
      (v (bk * 2 ^ (t + 1) + i)) with h | h
    · rw [if_pos h, if_pos h, min_eq_right h.le, max_eq_left h.le]
      exact ⟨rfl, rfl⟩
    · rw [if_neg (not_lt.mpr h), if_neg (not_lt.mpr h), min_eq_left h, max_eq_right h]
      exact ⟨rfl, rfl⟩

theorem C6_witness :
    1 < 4 / 2 ^ (0 + 1) ∧ 0 < 2 ^ 0
    ∧ (calc_j 1 0 (2 ^ (0 + 1)) 0 = (if 1 = 0 then 2 ^ 0 * 2 - 0 - 1 else 0 + 2 ^ 0)
      ∧ execute_step 4 1 0 (ofList ([3, 1, 2, 0] : List ℕ)) (1 * 2 ^ (0 + 1) + 0)
        = (if ofList ([3, 1, 2, 0] : List ℕ) (1 * 2 ^ (0 + 1) + calc_j 1 0 (2 ^ (0 + 1)) 0)
              < ofList ([3, 1, 2, 0] : List ℕ) (1 * 2 ^ (0 + 1) + 0)
          then ofList ([3, 1, 2, 0] : List ℕ) (1 * 2 ^ (0 + 1) + calc_j 1 0 (2 ^ (0 + 1)) 0)
          else ofList ([3, 1, 2, 0] : List ℕ) (1 * 2 ^ (0 + 1) + 0))
      ∧ execute_step 4 1 0 (ofList ([3, 1, 2, 0] : List ℕ))
            (1 * 2 ^ (0 + 1) + calc_j 1 0 (2 ^ (0 + 1)) 0)
        = (if ofList ([3, 1, 2, 0] : List ℕ) (1 * 2 ^ (0 + 1) + calc_j 1 0 (2 ^ (0 + 1)) 0)
              < ofList ([3, 1, 2, 0] : List ℕ) (1 * 2 ^ (0 + 1) + 0)
          then ofList ([3, 1, 2, 0] : List ℕ) (1 * 2 ^ (0 + 1) + 0)
          else ofList ([3, 1, 2, 0] : List ℕ)
            (1 * 2 ^ (0 + 1) + calc_j 1 0 (2 ^ (0 + 1)) 0))) :=
  ⟨by decide, by decide,
    C6_sequential_partner_swap 4 1 0 1 0 (ofList ([3, 1, 2, 0] : List ℕ))
      (by decide) (by decide)⟩

/-! ## Boolean order helpers -/

theorem bool_le_iff (x y : Bool) : x ≤ y ↔ (x = true → y = true) := by
  cases x <;> cases y <;> simp

theorem bool_le_false (x : Bool) : x ≤ false ↔ x = false := by
  cases x <;> simp

theorem bool_min_and (x y : Bool) : min x y = (x && y) := by
  cases x <;> cases y <;> rfl

theorem bool_max_or (x y : Bool) : max x y = (x || y) := by
  cases x <;> cases y <;> rfl

theorem bool_eq_false_iff (b : Bool) : b = false ↔ ¬ b = true := by
  cases b <;> simp

theorem bool_true_iff_not_false (b : Bool) : b = true ↔ ¬ b = false := by
  cases b <;> simp

/-! ## Characterizations of sorted boolean windows -/

theorem ascOn_bool_char {v : ℕ → Bool} {a b : ℕ} (h : AscOn v a b) :
    ∃ c, a ≤ c ∧ c ≤ max a b ∧ ∀ x, a ≤ x → x < b → (v x = true ↔ c ≤ x) := by
  classical
  by_cases hex : ∃ x, a ≤ x ∧ x < b ∧ v x = true
  · have hspec := Nat.find_spec hex
    refine ⟨Nat.find hex, hspec.1, by have h1 := hspec.1; have h2 := hspec.2.1; omega, ?_⟩
    intro x hx1 hx2
    constructor
    · intro hvx
      by_contra hlt
      push_neg at hlt
      exact absurd ⟨hx1, hx2, hvx⟩ (Nat.find_min hex hlt)
    · intro hge
      have hmono := h (Nat.find hex) x hspec.1 hge hx2
      rw [bool_le_iff] at hmono
      exact hmono hspec.2.2
  · refine ⟨max a b, le_max_left a b, le_rfl, ?_⟩
    intro x hx1 hx2
    constructor
    · intro hvx
      exact absurd ⟨x, hx1, hx2, hvx⟩ hex
    · intro hge
      omega

theorem descOn_bool_char {v : ℕ → Bool} {a b : ℕ} (h : DescOn v a b) :
    ∃ c, a ≤ c ∧ c ≤ max a b ∧ ∀ x, a ≤ x → x < b → (v x = true ↔ x < c) := by
  classical
  by_cases hex : ∃ x, a ≤ x ∧ x < b ∧ v x = false
  · have hspec := Nat.find_spec hex
    refine ⟨Nat.find hex, hspec.1, by have h1 := hspec.1; have h2 := hspec.2.1; omega, ?_⟩
    intro x hx1 hx2
    constructor
    · intro hvx
      by_contra hge
      push_neg at hge
      have hmono := h (Nat.find hex) x hspec.1 hge hx2
      rw [hspec.2.2, bool_le_false] at hmono
      rw [hvx] at hmono
      cases hmono
    · intro hlt
      rw [bool_true_iff_not_false]
      intro hvf
      exact absurd ⟨hx1, hx2, hvf⟩ (Nat.find_min hex hlt)
  · refine ⟨max a b, le_max_left a b, le_rfl, ?_⟩
    intro x hx1 hx2
    constructor
    · intro _
      omega
    · intro _
      rw [bool_true_iff_not_false]
      intro hvf
      exact absurd ⟨x, hx1, hx2, hvf⟩ hex

theorem ascOn_of_ones_tail {v : ℕ → Bool} {a b c : ℕ}
    (h : ∀ x, a ≤ x → x < b → (v x = true ↔ c ≤ x)) : AscOn v a b := by
  intro i j h1 h2 h3
  rw [bool_le_iff]
  intro hti
  rw [h j (by omega) h3]
  rw [h i h1 (by omega)] at hti
  omega

theorem descOn_of_ones_head {v : ℕ → Bool} {a b c : ℕ}
    (h : ∀ x, a ≤ x → x < b → (v x = true ↔ x < c)) : DescOn v a b := by
  intro i j h1 h2 h3
  rw [bool_le_iff]
  intro htj
  rw [h i h1 (by omega)]
  rw [h j (by omega) h3] at htj
  omega

theorem ascOn_glue {v : ℕ → Bool} {a m b : ℕ}
    (h1 : AscOn v a (a + m)) (h2 : AscOn v (a + m) b)
    (hle : (∀ x, a ≤ x → x < a + m → v x = false)
      ∨ (∀ y, a + m ≤ y → y < b → v y = true)) :
    AscOn v a b := by
  intro i j hi hij hj
  by_cases hj2 : j < a + m
  · exact h1 i j hi hij hj2
  · by_cases hi1 : a + m ≤ i
    · exact h2 i j hi1 hij hj
    · push_neg at hj2 hi1
      rcases hle with hf | ht
      · rw [bool_le_iff]
        intro hti
        rw [hf i hi hi1] at hti
        cases hti
      · rw [bool_le_iff]
        intro _
        exact ht j hj2 hj

theorem descOn_glue {v : ℕ → Bool} {a m b : ℕ}
    (h1 : DescOn v a (a + m)) (h2 : DescOn v (a + m) b)
    (hge : (∀ x, a ≤ x → x < a + m → v x = true)
      ∨ (∀ y, a + m ≤ y → y < b → v y = false)) :
    DescOn v a b := by
  intro i j hi hij hj
  by_cases hj2 : j < a + m
  · exact h1 i j hi hij hj2
  · by_cases hi1 : a + m ≤ i
    · exact h2 i j hi1 hij hj
    · push_neg at hj2 hi1
      rcases hge with ht | hf
      · rw [bool_le_iff]
        intro _
        exact ht i hi hi1
      · rw [bool_le_iff]
        intro htj
        rw [hf j hj2 hj] at htj
        cases htj

/-- Two adjacent sorted boolean runs, ascending then descending, form a
mountain. -/
theorem mountainOn_of_asc_desc {v : ℕ → Bool} {a m b : ℕ}
    (h1 : AscOn v a (a + m)) (h2 : DescOn v (a + m) b) : MountainOn v a b := by
  obtain ⟨c1, hca1, hcb1, hc1⟩ := ascOn_bool_char h1
  obtain ⟨c2, hca2, hcb2, hc2⟩ := descOn_bool_char h2
  refine ⟨c1, c2, ?_⟩
  intro x hx1 hx2
  by_cases hx : x < a + m
  · rw [hc1 x hx1 hx]
    omega
  · push_neg at hx
    rw [hc2 x hx hx2]
    omega

/-! ## The half-cleaner on cyclically bitonic boolean windows -/

/-- Half-cleaning a cyclically bitonic boolean window of length `2*m`
(`w x = v x && v (x+m)` on the lower half, `w x = v (x-m) || v x` on the
upper half) leaves two cyclically bitonic halves, and either the lower half
is all false or the upper half is all true. -/
theorem half_clean_mov {v w : ℕ → Bool} {a m : ℕ}
    (hmov : MovOn v a (a + 2 * m))
    (hw1 : ∀ x, a ≤ x → x < a + m → w x = (v x && v (x + m)))
    (hw2 : ∀ x, a + m ≤ x → x < a + 2 * m → w x = (v (x - m) || v x)) :
    MovOn w a (a + m) ∧ MovOn w (a + m) (a + 2 * m)
    ∧ ((∀ x, a ≤ x → x < a + m → w x = false)
      ∨ (∀ y, a + m ≤ y → y < a + 2 * m → w y = true)) := by
  rcases hmov with ⟨c, d, hch⟩ | ⟨c, d, hch⟩
  · refine ⟨Or.inl ⟨c, d - m, ?_⟩, ?_, ?_⟩
    · intro x hx1 hx2
      rw [hw1 x hx1 hx2, Bool.and_eq_true, hch x hx1 (by omega),
        hch (x + m) (by omega) (by omega)]
      omega
    · rcases le_or_lt d (a + m) with hd | hd
      · refine Or.inl ⟨c + m, d + m, ?_⟩
        intro y hy1 hy2
        rw [hw2 y hy1 hy2, Bool.or_eq_true, hch (y - m) (by omega) (by omega),
          hch y (by omega) hy2]
        omega
      · rcases le_or_lt (a + m) c with hc | hc
        · refine Or.inl ⟨c, d, ?_⟩
          intro y hy1 hy2
          rw [hw2 y hy1 hy2, Bool.or_eq_true, hch (y - m) (by omega) (by omega),
            hch y (by omega) hy2]
          omega
        · refine Or.inr ⟨d, c + m, ?_⟩
          intro y hy1 hy2
          rw [hw2 y hy1 hy2, Bool.or_eq_false_iff,
            bool_eq_false_iff (v (y - m)), bool_eq_false_iff (v y),
            hch (y - m) (by omega) (by omega), hch y (by omega) hy2]
          omega
    · by_cases hex : ∃ x, a ≤ x ∧ x < a + m ∧ w x = true
      · right
        obtain ⟨x0, hx1, hx2, hwx⟩ := hex
        rw [hw1 x0 hx1 hx2, Bool.and_eq_true, hch x0 hx1 (by omega),
          hch (x0 + m) (by omega) (by omega)] at hwx
        intro y hy1 hy2
        rw [hw2 y hy1 hy2, Bool.or_eq_true, hch (y - m) (by omega) (by omega),
          hch y (by omega) hy2]
        omega
      · left
        intro x hx1 hx2
        rw [bool_eq_false_iff]
        exact fun hw => hex ⟨x, hx1, hx2, hw⟩
  · refine ⟨?_, Or.inr ⟨c + m, d, ?_⟩, ?_⟩
    · rcases le_or_lt (a + m) c with hc | hc
      · refine Or.inr ⟨c - m, d - m, ?_⟩
        intro x hx1 hx2
        rw [bool_eq_false_iff, hw1 x hx1 hx2, Bool.and_eq_true,
          bool_true_iff_not_false (v x), bool_true_iff_not_false (v (x + m)),
          hch x hx1 (by omega), hch (x + m) (by omega) (by omega)]
        omega
      · rcases le_or_lt d (a + m) with hd | hd
        · refine Or.inr ⟨c, d, ?_⟩
          intro x hx1 hx2
          rw [bool_eq_false_iff, hw1 x hx1 hx2, Bool.and_eq_true,
            bool_true_iff_not_false (v x), bool_true_iff_not_false (v (x + m)),
            hch x hx1 (by omega), hch (x + m) (by omega) (by omega)]
          omega
        · refine Or.inl ⟨d - m, c, ?_⟩
          intro x hx1 hx2
          rw [hw1 x hx1 hx2, Bool.and_eq_true,
            bool_true_iff_not_false (v x), bool_true_iff_not_false (v (x + m)),
            hch x hx1 (by omega), hch (x + m) (by omega) (by omega)]
          omega
    · intro y hy1 hy2
      rw [hw2 y hy1 hy2, Bool.or_eq_false_iff, hch (y - m) (by omega) (by omega),
        hch y (by omega) hy2]
      omega
    · by_cases hex : ∃ x, a ≤ x ∧ x < a + m ∧ w x = true
      · right
        obtain ⟨x0, hx1, hx2, hwx⟩ := hex
        rw [hw1 x0 hx1 hx2, Bool.and_eq_true,
          bool_true_iff_not_false (v x0), bool_true_iff_not_false (v (x0 + m)),
          hch x0 hx1 (by omega), hch (x0 + m) (by omega) (by omega)] at hwx
        intro y hy1 hy2
        rw [hw2 y hy1 hy2, Bool.or_eq_true,
          bool_true_iff_not_false (v (y - m)), bool_true_iff_not_false (v y),
          hch (y - m) (by omega) (by omega), hch y (by omega) hy2]
        omega
      · left
        intro x hx1 hx2
        rw [bool_eq_false_iff]
        exact fun hw => hex ⟨x, hx1, hx2, hw⟩

/-- The reversal layer on two adjacent ascending boolean halves
(`w x = v x && v (mirror x)` below, `w x = v (mirror x) || v x` above, with
`mirror x = 2*a + 2*m - 1 - x`) leaves two cyclically bitonic halves with
the lower-false-or-upper-true property. -/
theorem rev_first_mov {v w : ℕ → Bool} {a m : ℕ}
    (h1 : AscOn v a (a + m)) (h2 : AscOn v (a + m) (a + 2 * m))
    (hw1 : ∀ x, a ≤ x → x < a + m → w x = (v x && v (2 * a + 2 * m - 1 - x)))
    (hw2 : ∀ x, a + m ≤ x → x < a + 2 * m → w x = (v (2 * a + 2 * m - 1 - x) || v x)) :
    MovOn w a (a + m) ∧ MovOn w (a + m) (a + 2 * m)
    ∧ ((∀ x, a ≤ x → x < a + m → w x = false)
      ∨ (∀ y, a + m ≤ y → y < a + 2 * m → w y = true)) := by
  obtain ⟨c1, hca1, hcb1, hc1⟩ := ascOn_bool_char h1
  obtain ⟨c2, hca2, hcb2, hc2⟩ := ascOn_bool_char h2
  have hmax1 : max a (a + m) = a + m := by omega
  have hmax2 : max (a + m) (a + 2 * m) = a + 2 * m := by omega
  rw [hmax1] at hcb1
  rw [hmax2] at hcb2
  refine ⟨Or.inl ⟨c1, 2 * a + 2 * m - c2, ?_⟩, Or.inr ⟨2 * a + 2 * m - c1, c2, ?_⟩, ?_⟩
  · intro x hx1 hx2
    rw [hw1 x hx1 hx2, Bool.and_eq_true, hc1 x hx1 hx2,
      hc2 (2 * a + 2 * m - 1 - x) (by omega) (by omega)]
    omega
  · intro y hy1 hy2
    rw [bool_eq_false_iff, hw2 y hy1 hy2, Bool.or_eq_true,
      hc1 (2 * a + 2 * m - 1 - y) (by omega) (by omega), hc2 y hy1 hy2]
    omega
  · by_cases hex : ∃ x, a ≤ x ∧ x < a + m ∧ w x = true
    · right
      obtain ⟨x0, hx1, hx2, hwx⟩ := hex
      rw [hw1 x0 hx1 hx2, Bool.and_eq_true, hc1 x0 hx1 hx2,
        hc2 (2 * a + 2 * m - 1 - x0) (by omega) (by omega)] at hwx
      intro y hy1 hy2
      rw [hw2 y hy1 hy2, Bool.or_eq_true,
        hc1 (2 * a + 2 * m - 1 - y) (by omega) (by omega), hc2 y hy1 hy2]
      omega
    · left
      intro x hx1 hx2
      rw [bool_eq_false_iff]
      exact fun hw => hex ⟨x, hx1, hx2, hw⟩

/-! ## Constant blocks are fixed by the cleanup -/

theorem mod_in_block {B q x : ℕ} (h1 : B * q ≤ x) (h2 : x < B * q + B) :
    x % B = x - B * q := by
  have hx : x = B * q + (x - B * q) := by omega
  conv_lhs => rw [hx]
  rw [Nat.mul_add_mod]
  exact Nat.mod_eq_of_lt (by omega)

theorem ascLayer_const {v : ℕ → α} {t : ℕ} {c : α} (q : ℕ)
    (h : ∀ x, 2 ^ (t + 1) * q ≤ x → x < 2 ^ (t + 1) * q + 2 ^ (t + 1) → v x = c) :
    ∀ x, 2 ^ (t + 1) * q ≤ x → x < 2 ^ (t + 1) * q + 2 ^ (t + 1) → ascLayer t v x = c := by
  intro x h1 h2
  have h2t := pow_succ_two t
  have hm := mod_in_block h1 h2
  unfold ascLayer
  by_cases hx : x % 2 ^ (t + 1) < 2 ^ t
  · rw [if_pos hx, h x h1 h2, h (x + 2 ^ t) (by omega) (by omega), min_self]
  · rw [if_neg hx, h (x - 2 ^ t) (by omega) (by omega), h x h1 h2, max_self]

theorem ascClean_const : ∀ (t : ℕ) (v : ℕ → α) (q : ℕ) (c : α),
    (∀ x, 2 ^ (t + 1) * q ≤ x → x < 2 ^ (t + 1) * q + 2 ^ (t + 1) → v x = c) →
    ∀ x, 2 ^ (t + 1) * q ≤ x → x < 2 ^ (t + 1) * q + 2 ^ (t + 1) → ascClean t v x = c := by
  intro t
  induction t with
  | zero =>
    intro v q c h x h1 h2
    exact ascLayer_const q h x h1 h2
  | succ t ih =>
    intro v q c h x h1 h2
    show ascClean t (ascLayer (t + 1) v) x = c
    have hfc := ascLayer_const q h
    have e1 : 2 ^ (t + 1) * (2 * q) = 2 ^ (t + 1 + 1) * q := by ring
    have e2 : 2 ^ (t + 1) * (2 * q + 1) = 2 ^ (t + 1 + 1) * q + 2 ^ (t + 1) := by ring
    have h2t := pow_succ_two (t + 1)
    by_cases hx : x < 2 ^ (t + 1 + 1) * q + 2 ^ (t + 1)
    · exact ih (ascLayer (t + 1) v) (2 * q) c
        (fun y hy1 hy2 => hfc y (by omega) (by omega)) x (by omega) (by omega)
    · exact ih (ascLayer (t + 1) v) (2 * q + 1) c
        (fun y hy1 hy2 => hfc y (by omega) (by omega)) x (by omega) (by omega)

/-! ## The ascending cleanup sorts a cyclically bitonic block -/

theorem ascClean_sorts : ∀ (t : ℕ) (v : ℕ → Bool) (q : ℕ),
    MovOn v (2 ^ (t + 1) * q) (2 ^ (t + 1) * q + 2 ^ (t + 1)) →
    AscOn (ascClean t v) (2 ^ (t + 1) * q) (2 ^ (t + 1) * q + 2 ^ (t + 1)) := by
  intro t
  induction t with
  | zero =>
    intro v q _ i j hij1 hij2 hij3
    show ascLayer 0 v i ≤ ascLayer 0 v j
    by_cases hij : i = j
    · rw [hij]
    · have hi : i = 2 * q := by norm_num at hij1 hij3; omega
      have hj : j = 2 * q + 1 := by norm_num at hij1 hij3; omega
      have hmi : i % 2 ^ (0 + 1) = 0 := by
        rw [hi]
        omega
      have hmj : j % 2 ^ (0 + 1) = 1 := by
        rw [hj]
        omega
      unfold ascLayer
      rw [if_pos (by rw [hmi]; norm_num), if_neg (by rw [hmj]; norm_num)]
      have hji : j - 2 ^ 0 = i := by omega
      have hij' : i + 2 ^ 0 = j := by omega
      rw [hji, hij']
      exact min_le_max
  | succ t ih =>
    intro v q hmov
    show AscOn (ascClean t (ascLayer (t + 1) v)) _ _
    have h2t := pow_succ_two (t + 1)
    have e1 : 2 ^ (t + 1) * (2 * q) = 2 ^ (t + 1 + 1) * q := by ring
    have e2 : 2 ^ (t + 1) * (2 * q + 1) = 2 ^ (t + 1 + 1) * q + 2 ^ (t + 1) := by ring
    have hmodfull : ∀ x, 2 ^ (t + 1 + 1) * q ≤ x → x < 2 ^ (t + 1 + 1) * q + 2 ^ (t + 1 + 1) →
        x % 2 ^ (t + 1 + 1) = x - 2 ^ (t + 1 + 1) * q := fun x h1 h2 => mod_in_block h1 h2
    have hw1 : ∀ x, 2 ^ (t + 1 + 1) * q ≤ x → x < 2 ^ (t + 1 + 1) * q + 2 ^ (t + 1) →
        ascLayer (t + 1) v x = (v x && v (x + 2 ^ (t + 1))) := by
      intro x h1 h2
      have hm := hmodfull x h1 (by omega)
      unfold ascLayer
      rw [if_pos (by omega), bool_min_and]
    have hw2 : ∀ x, 2 ^ (t + 1 + 1) * q + 2 ^ (t + 1) ≤ x →
        x < 2 ^ (t + 1 + 1) * q + 2 * 2 ^ (t + 1) →
        ascLayer (t + 1) v x = (v (x - 2 ^ (t + 1)) || v x) := by
      intro x h1 h2
      have hm := hmodfull x (by omega) (by omega)
      unfold ascLayer
      rw [if_neg (by omega), bool_max_or]
    have hmov2 : MovOn v (2 ^ (t + 1 + 1) * q) (2 ^ (t + 1 + 1) * q + 2 * 2 ^ (t + 1)) := by
      have he : 2 ^ (t + 1 + 1) * q + 2 ^ (t + 1 + 1)
          = 2 ^ (t + 1 + 1) * q + 2 * 2 ^ (t + 1) := by omega
      rw [← he]
      exact hmov
    obtain ⟨hl, hu, hle⟩ := half_clean_mov hmov2 hw1 hw2
    have hhl : AscOn (ascClean t (ascLayer (t + 1) v))
        (2 ^ (t + 1 + 1) * q) (2 ^ (t + 1 + 1) * q + 2 ^ (t + 1)) := by
      have := ih (ascLayer (t + 1) v) (2 * q) (by rw [e1]; exact hl)
      rw [e1] at this
      exact this
    have hhu : AscOn (ascClean t (ascLayer (t + 1) v))
        (2 ^ (t + 1 + 1) * q + 2 ^ (t + 1)) (2 ^ (t + 1 + 1) * q + 2 ^ (t + 1 + 1)) := by
      have := ih (ascLayer (t + 1) v) (2 * q + 1) (by
        rw [e2]
        have he : 2 ^ (t + 1) * (2 * q + 1) + 2 ^ (t + 1)
            = 2 ^ (t + 1 + 1) * q + 2 * 2 ^ (t + 1) := by omega
        rw [e2] at he
        have hu' := hu
        rw [show 2 ^ (t + 1 + 1) * q + 2 * 2 ^ (t + 1)
            = (2 ^ (t + 1 + 1) * q + 2 ^ (t + 1)) + 2 ^ (t + 1) by omega] at hu'
        exact hu')
      rw [e2] at this
      have he2 : 2 ^ (t + 1 + 1) * q + 2 ^ (t + 1) + 2 ^ (t + 1)
          = 2 ^ (t + 1 + 1) * q + 2 ^ (t + 1 + 1) := by omega
      rw [he2] at this
      exact this
    have hle2 : (∀ x, 2 ^ (t + 1 + 1) * q ≤ x → x < 2 ^ (t + 1 + 1) * q + 2 ^ (t + 1) →
          ascClean t (ascLayer (t + 1) v) x = false)
        ∨ (∀ y, 2 ^ (t + 1 + 1) * q + 2 ^ (t + 1) ≤ y →
          y < 2 ^ (t + 1 + 1) * q + 2 ^ (t + 1 + 1) →
          ascClean t (ascLayer (t + 1) v) y = true) := by
      rcases hle with hf | ht
      · left
        intro x h1 h2
        exact ascClean_const t (ascLayer (t + 1) v) (2 * q) false
          (fun y hy1 hy2 => hf y (by omega) (by omega)) x (by omega) (by omega)
      · right
        intro y h1 h2
        exact ascClean_const t (ascLayer (t + 1) v) (2 * q + 1) true
          (fun z hz1 hz2 => ht z (by omega) (by omega)) y (by omega) (by omega)
    exact ascOn_glue hhl hhu hle2

/-! ## Boolean negation conjugation: descending from ascending -/

theorem bool_max_not (a b : Bool) : max a b = !(min (!a) (!b)) := by
  cases a <;> cases b <;> rfl

theorem bool_min_not (a b : Bool) : min a b = !(max (!a) (!b)) := by
  cases a <;> cases b <;> rfl

theorem bool_not_false (b : Bool) : (!b) = false ↔ b = true := by
  cases b <;> simp

theorem bool_not_true (b : Bool) : (!b) = true ↔ b = false := by
  cases b <;> simp

theorem bool_not_le (x y : Bool) : (!x) ≤ (!y) ↔ y ≤ x := by
  cases x <;> cases y <;> simp

theorem descLayer_conj (t : ℕ) (v : ℕ → Bool) :
    descLayer t v = fun x => !(ascLayer t (fun y => !(v y)) x) := by
  funext x
  unfold descLayer ascLayer
  by_cases hx : x % 2 ^ (t + 1) < 2 ^ t
  · rw [if_pos hx, if_pos hx]
    exact bool_max_not _ _
  · rw [if_neg hx, if_neg hx]
    exact bool_min_not _ _

theorem descClean_conj : ∀ (t : ℕ) (v : ℕ → Bool),
    descClean t v = fun x => !(ascClean t (fun y => !(v y)) x) := by
  intro t
  induction t with
  | zero =>
    intro v
    show descLayer 0 v = _
    exact descLayer_conj 0 v
  | succ t ih =>
    intro v
    show descClean t (descLayer (t + 1) v) = _
    rw [ih (descLayer (t + 1) v), descLayer_conj (t + 1) v]
    simp only [Bool.not_not]
    rfl

theorem movOn_not {v : ℕ → Bool} {a b : ℕ} (h : MovOn v a b) :
    MovOn (fun y => !(v y)) a b := by
  rcases h with ⟨c, d, hch⟩ | ⟨c, d, hch⟩
  · exact Or.inr ⟨c, d, fun x h1 h2 => by rw [bool_not_false]; exact hch x h1 h2⟩
  · exact Or.inl ⟨c, d, fun x h1 h2 => by rw [bool_not_true]; exact hch x h1 h2⟩

theorem descOn_of_ascOn_not {v : ℕ → Bool} {a b : ℕ}
    (h : AscOn (fun y => !(v y)) a b) : DescOn v a b := by
  intro i j h1 h2 h3
  exact (bool_not_le (v i) (v j)).mp (h i j h1 h2 h3)

theorem descClean_sorts (t : ℕ) (v : ℕ → Bool) (q : ℕ)
    (h : MovOn v (2 ^ (t + 1) * q) (2 ^ (t + 1) * q + 2 ^ (t + 1))) :
    DescOn (descClean t v) (2 ^ (t + 1) * q) (2 ^ (t + 1) * q + 2 ^ (t + 1)) := by
  apply descOn_of_ascOn_not
  have hfe : (fun y => !(descClean t v y)) = ascClean t (fun y => !(v y)) := by
    rw [descClean_conj]
    funext y
    simp [Bool.not_not]
  rw [hfe]
  exact ascClean_sorts t _ q (movOn_not h)

theorem descClean_const (t : ℕ) (v : ℕ → Bool) (q : ℕ) (c : Bool)
    (h : ∀ x, 2 ^ (t + 1) * q ≤ x → x < 2 ^ (t + 1) * q + 2 ^ (t + 1) → v x = c) :
    ∀ x, 2 ^ (t + 1) * q ≤ x → x < 2 ^ (t + 1) * q + 2 ^ (t + 1) → descClean t v x = c := by
  intro x h1 h2
  have hx := congrFun (descClean_conj t v) x
  rw [hx]
  have hcc := ascClean_const t (fun y => !(v y)) q (!c)
    (fun y hy1 hy2 => by show (!(v y)) = !c; rw [h y hy1 hy2]) x h1 h2
  simp only at hcc
  rw [hcc, Bool.not_not]

/-! ## Block index arithmetic and locality -/

theorem div_in_block {B q x : ℕ} (hB : 0 < B) (h1 : B * q ≤ x) (h2 : x < B * q + B) :
    x / B = q := by
  have hx : x = B * q + (x - B * q) := by omega
  conv_lhs => rw [hx]
  rw [Nat.mul_add_div hB, Nat.div_eq_of_lt (by omega), Nat.add_zero]

theorem block_partner_hi {B x n : ℕ} (hB : 0 < B) (hdvd : B ∣ n) (hx : x < n) :
    x / B * B + B ≤ n := by
  have h1 : x / B < n / B := Nat.div_lt_div_of_lt_of_dvd hdvd hx
  have h2 : (x / B + 1) * B ≤ n / B * B := Nat.mul_le_mul_right _ (by omega)
  have h3 : n / B * B = n := Nat.div_mul_cancel hdvd
  have h4 : (x / B + 1) * B = x / B * B + B := by ring
  omega

theorem block_start_ge {B x a : ℕ} (hB : 0 < B) (hdvd : B ∣ a) (hx : a ≤ x) :
    a ≤ x / B * B := by
  have h1 : a / B ≤ x / B := Nat.div_le_div_right hx
  have h2 : a / B * B ≤ x / B * B := Nat.mul_le_mul_right _ h1
  have h3 : a / B * B = a := Nat.div_mul_cancel hdvd
  omega

theorem EqOn.trans {v w u : ℕ → α} {a b : ℕ} (h1 : EqOn v w a b) (h2 : EqOn w u a b) :
    EqOn v u a b :=
  fun x hx1 hx2 => (h1 x hx1 hx2).trans (h2 x hx1 hx2)

theorem ascOn_congr {v w : ℕ → α} {a b : ℕ} (h : EqOn v w a b) (hw : AscOn w a b) :
    AscOn v a b := by
  intro i j h1 h2 h3
  rw [h i h1 (by omega), h j (by omega) h3]
  exact hw i j h1 h2 h3

theorem descOn_congr {v w : ℕ → α} {a b : ℕ} (h : EqOn v w a b) (hw : DescOn w a b) :
    DescOn v a b := by
  intro i j h1 h2 h3
  rw [h i h1 (by omega), h j (by omega) h3]
  exact hw i j h1 h2 h3

theorem ascLayer_eqOn {v w : ℕ → α} {t a L : ℕ} (hda : 2 ^ (t + 1) ∣ a)
    (hdL : 2 ^ (t + 1) ∣ L) (h : EqOn v w a (a + L)) :
    EqOn (ascLayer t v) (ascLayer t w) a (a + L) := by
  intro x h1 h2
  have hB : (0 : ℕ) < 2 ^ (t + 1) := Nat.pos_pow_of_pos _ two_pos
  have h2t := pow_succ_two t
  have hdm := Nat.div_add_mod x (2 ^ (t + 1))
  have hmlt : x % 2 ^ (t + 1) < 2 ^ (t + 1) := Nat.mod_lt _ hB
  have hge := block_start_ge hB hda h1
  have hhi := block_partner_hi hB (Nat.dvd_add hda hdL) h2
  have hcomm : 2 ^ (t + 1) * (x / 2 ^ (t + 1)) = x / 2 ^ (t + 1) * 2 ^ (t + 1) :=
    Nat.mul_comm _ _
  unfold ascLayer
  by_cases hx : x % 2 ^ (t + 1) < 2 ^ t
  · rw [if_pos hx, if_pos hx, h x h1 h2, h (x + 2 ^ t) (by omega) (by omega)]
  · rw [if_neg hx, if_neg hx, h (x - 2 ^ t) (by omega) (by omega), h x h1 h2]

theorem descLayer_eqOn {v w : ℕ → α} {t a L : ℕ} (hda : 2 ^ (t + 1) ∣ a)
    (hdL : 2 ^ (t + 1) ∣ L) (h : EqOn v w a (a + L)) :
    EqOn (descLayer t v) (descLayer t w) a (a + L) := by
  intro x h1 h2
  have hB : (0 : ℕ) < 2 ^ (t + 1) := Nat.pos_pow_of_pos _ two_pos
  have h2t := pow_succ_two t
  have hdm := Nat.div_add_mod x (2 ^ (t + 1))
  have hmlt : x % 2 ^ (t + 1) < 2 ^ (t + 1) := Nat.mod_lt _ hB
  have hge := block_start_ge hB hda h1
  have hhi := block_partner_hi hB (Nat.dvd_add hda hdL) h2
  have hcomm : 2 ^ (t + 1) * (x / 2 ^ (t + 1)) = x / 2 ^ (t + 1) * 2 ^ (t + 1) :=
    Nat.mul_comm _ _
  unfold descLayer
  by_cases hx : x % 2 ^ (t + 1) < 2 ^ t
  · rw [if_pos hx, if_pos hx, h x h1 h2, h (x + 2 ^ t) (by omega) (by omega)]
  · rw [if_neg hx, if_neg hx, h (x - 2 ^ t) (by omega) (by omega), h x h1 h2]

theorem ascClean_eqOn : ∀ (t : ℕ) {v w : ℕ → α} {a L : ℕ}, 2 ^ (t + 1) ∣ a →
    2 ^ (t + 1) ∣ L → EqOn v w a (a + L) → EqOn (ascClean t v) (ascClean t w) a (a + L) := by
  intro t
  induction t with
  | zero =>
    intro v w a L hda hdL h
    exact ascLayer_eqOn hda hdL h
  | succ t ih =>
    intro v w a L hda hdL h
    have hsub : (2 : ℕ) ^ (t + 1) ∣ 2 ^ (t + 1 + 1) := pow_dvd_pow 2 (by omega)
    exact ih (hsub.trans hda) (hsub.trans hdL) (ascLayer_eqOn hda hdL h)

theorem descClean_eqOn : ∀ (t : ℕ) {v w : ℕ → α} {a L : ℕ}, 2 ^ (t + 1) ∣ a →
    2 ^ (t + 1) ∣ L → EqOn v w a (a + L) → EqOn (descClean t v) (descClean t w) a (a + L) := by
  intro t
  induction t with
  | zero =>
    intro v w a L hda hdL h
    exact descLayer_eqOn hda hdL h
  | succ t ih =>
    intro v w a L hda hdL h
    have hsub : (2 : ℕ) ^ (t + 1) ∣ 2 ^ (t + 1 + 1) := pow_dvd_pow 2 (by omega)
    exact ih (hsub.trans hda) (hsub.trans hdL) (descLayer_eqOn hda hdL h)

/-! ## The device stage on one direction block -/

theorem dirLayer_eqOn {v w : ℕ → α} {s t a L : ℕ} (hda : 2 ^ (t + 1) ∣ a)
    (hdL : 2 ^ (t + 1) ∣ L) (h : EqOn v w a (a + L)) :
    EqOn (dirLayer s t v) (dirLayer s t w) a (a + L) := by
  intro x h1 h2
  unfold dirLayer
  by_cases hx : x / 2 ^ (s + 1) % 2 = 0
  · rw [if_pos hx, if_pos hx, ascLayer_eqOn hda hdL h x h1 h2]
  · rw [if_neg hx, if_neg hx, descLayer_eqOn hda hdL h x h1 h2]

theorem dirLayer_asc_block {v : ℕ → α} {s t q : ℕ} (hq : q % 2 = 0) :
    EqOn (dirLayer s t v) (ascLayer t v) (2 ^ (s + 1) * q) (2 ^ (s + 1) * q + 2 ^ (s + 1)) := by
  intro x h1 h2
  have hB : (0 : ℕ) < 2 ^ (s + 1) := Nat.pos_pow_of_pos _ two_pos
  have hdiv := div_in_block hB h1 h2
  unfold dirLayer
  rw [hdiv, if_pos hq]

theorem dirLayer_desc_block {v : ℕ → α} {s t q : ℕ} (hq : q % 2 = 1) :
    EqOn (dirLayer s t v) (descLayer t v) (2 ^ (s + 1) * q) (2 ^ (s + 1) * q + 2 ^ (s + 1)) := by
  intro x h1 h2
  have hB : (0 : ℕ) < 2 ^ (s + 1) := Nat.pos_pow_of_pos _ two_pos
  have hdiv := div_in_block hB h1 h2
  unfold dirLayer
  rw [hdiv, if_neg (by omega)]

theorem dirSteps_asc_block : ∀ (t : ℕ) {s : ℕ} (v : ℕ → α) (q : ℕ), t ≤ s → q % 2 = 0 →
    EqOn (dirSteps s t v) (ascClean t v) (2 ^ (s + 1) * q) (2 ^ (s + 1) * q + 2 ^ (s + 1)) := by
  intro t
  induction t with
  | zero =>
    intro s v q _ hq
    exact dirLayer_asc_block hq
  | succ t ih =>
    intro s v q hts hq
    show EqOn (dirSteps s t (dirLayer s (t + 1) v)) (ascClean t (ascLayer (t + 1) v)) _ _
    have hd1 : (2 : ℕ) ^ (t + 1) ∣ 2 ^ (s + 1) * q :=
      Dvd.dvd.mul_right (pow_dvd_pow 2 (by omega)) q
    have hd2 : (2 : ℕ) ^ (t + 1) ∣ 2 ^ (s + 1) := pow_dvd_pow 2 (by omega)
    have hd1' : (2 : ℕ) ^ (t + 1 + 1) ∣ 2 ^ (s + 1) * q :=
      Dvd.dvd.mul_right (pow_dvd_pow 2 (by omega)) q
    have hd2' : (2 : ℕ) ^ (t + 1 + 1) ∣ 2 ^ (s + 1) := pow_dvd_pow 2 (by omega)
    have hstep : EqOn (dirLayer s (t + 1) v) (ascLayer (t + 1) v)
        (2 ^ (s + 1) * q) (2 ^ (s + 1) * q + 2 ^ (s + 1)) := dirLayer_asc_block hq
    exact (ih (dirLayer s (t + 1) v) q (by omega) hq).trans
      (ascClean_eqOn t hd1 hd2 hstep)

theorem dirSteps_desc_block : ∀ (t : ℕ) {s : ℕ} (v : ℕ → α) (q : ℕ), t ≤ s → q % 2 = 1 →
    EqOn (dirSteps s t v) (descClean t v) (2 ^ (s + 1) * q) (2 ^ (s + 1) * q + 2 ^ (s + 1)) := by
  intro t
  induction t with
  | zero =>
    intro s v q _ hq
    exact dirLayer_desc_block hq
  | succ t ih =>
    intro s v q hts hq
    show EqOn (dirSteps s t (dirLayer s (t + 1) v)) (descClean t (descLayer (t + 1) v)) _ _
    have hd1 : (2 : ℕ) ^ (t + 1) ∣ 2 ^ (s + 1) * q :=
      Dvd.dvd.mul_right (pow_dvd_pow 2 (by omega)) q
    have hd2 : (2 : ℕ) ^ (t + 1) ∣ 2 ^ (s + 1) := pow_dvd_pow 2 (by omega)
    have hstep : EqOn (dirLayer s (t + 1) v) (descLayer (t + 1) v)
        (2 ^ (s + 1) * q) (2 ^ (s + 1) * q + 2 ^ (s + 1)) := dirLayer_desc_block hq
    exact (ih (dirLayer s (t + 1) v) q (by omega) hq).trans
      (descClean_eqOn t hd1 hd2 hstep)

/-! ## The boolean network invariants -/

theorem ascOn_singleton (v : ℕ → α) (a : ℕ) : AscOn v a (a + 1) := by
  intro i j h1 h2 h3
  have : i = j := by omega
  rw [this]

theorem descOn_singleton (v : ℕ → α) (a : ℕ) : DescOn v a (a + 1) := by
  intro i j h1 h2 h3
  have : i = j := by omega
  rw [this]

/-- One sequential stage sorts a block whose halves are sorted ascending. -/
theorem revStage_sorts (s : ℕ) (u : ℕ → Bool) (q : ℕ)
    (hasc1 : AscOn u (2 ^ (s + 1) * q) (2 ^ (s + 1) * q + 2 ^ s))
    (hasc2 : AscOn u (2 ^ (s + 1) * q + 2 ^ s) (2 ^ (s + 1) * q + 2 ^ (s + 1))) :
    AscOn (cpuStage s u) (2 ^ (s + 1) * q) (2 ^ (s + 1) * q + 2 ^ (s + 1)) := by
  have h2s := pow_succ_two s
  have hB : (0 : ℕ) < 2 ^ (s + 1) := Nat.pos_pow_of_pos _ two_pos
  have hqcomm : q * 2 ^ (s + 1) = 2 ^ (s + 1) * q := Nat.mul_comm _ _
  have hmodfull : ∀ x, 2 ^ (s + 1) * q ≤ x → x < 2 ^ (s + 1) * q + 2 ^ (s + 1) →
      x % 2 ^ (s + 1) = x - 2 ^ (s + 1) * q := fun x hx1 hx2 => mod_in_block hx1 hx2
  have hdivfull : ∀ x, 2 ^ (s + 1) * q ≤ x → x < 2 ^ (s + 1) * q + 2 ^ (s + 1) →
      x / 2 ^ (s + 1) = q := fun x hx1 hx2 => div_in_block hB hx1 hx2
  have hw1 : ∀ x, 2 ^ (s + 1) * q ≤ x → x < 2 ^ (s + 1) * q + 2 ^ s →
      revLayer s u x = (u x && u (2 * (2 ^ (s + 1) * q) + 2 * 2 ^ s - 1 - x)) := by
    intro x hx1 hx2
    have hm := hmodfull x hx1 (by omega)
    have hd := hdivfull x hx1 (by omega)
    unfold revLayer
    rw [if_pos (by omega), hd, bool_min_and]
    have hidx : q * 2 ^ (s + 1) + (2 ^ (s + 1) - 1 - x % 2 ^ (s + 1))
        = 2 * (2 ^ (s + 1) * q) + 2 * 2 ^ s - 1 - x := by omega
    rw [hidx]
  have hw2 : ∀ x, 2 ^ (s + 1) * q + 2 ^ s ≤ x → x < 2 ^ (s + 1) * q + 2 * 2 ^ s →
      revLayer s u x = (u (2 * (2 ^ (s + 1) * q) + 2 * 2 ^ s - 1 - x) || u x) := by
    intro x hx1 hx2
    have hm := hmodfull x (by omega) (by omega)
    have hd := hdivfull x (by omega) (by omega)
    unfold revLayer
    rw [if_neg (by omega), hd, bool_max_or]
    have hidx : q * 2 ^ (s + 1) + (2 ^ (s + 1) - 1 - x % 2 ^ (s + 1))
        = 2 * (2 ^ (s + 1) * q) + 2 * 2 ^ s - 1 - x := by omega
    rw [hidx]
  have hasc2' : AscOn u (2 ^ (s + 1) * q + 2 ^ s) (2 ^ (s + 1) * q + 2 * 2 ^ s) := by
    have he : 2 ^ (s + 1) * q + 2 ^ (s + 1) = 2 ^ (s + 1) * q + 2 * 2 ^ s := by omega
    rw [← he]
    exact hasc2
  obtain ⟨hl, hu, hle⟩ := rev_first_mov hasc1 hasc2' hw1 hw2
  have hglue : 2 ^ (s + 1) * q + 2 * 2 ^ s = 2 ^ (s + 1) * q + 2 ^ (s + 1) := by omega
  cases s with
  | zero =>
    show AscOn (revLayer 0 u) _ _
    have hsing1 : AscOn (revLayer 0 u) (2 ^ (0 + 1) * q) (2 ^ (0 + 1) * q + 2 ^ 0) :=
      ascOn_singleton _ _
    have hsing2 : AscOn (revLayer 0 u)
        (2 ^ (0 + 1) * q + 2 ^ 0) (2 ^ (0 + 1) * q + 2 ^ (0 + 1)) := by
      have he2 : 2 ^ (0 + 1) * q + 2 ^ (0 + 1) = (2 ^ (0 + 1) * q + 2 ^ 0) + 1 := by norm_num
      rw [he2]
      exact ascOn_singleton _ _
    refine ascOn_glue hsing1 hsing2 ?_
    rw [hglue] at hle
    rcases hle with hf | ht
    · exact Or.inl hf
    · exact Or.inr ht
  | succ σ =>
    show AscOn (ascClean σ (revLayer (σ + 1) u)) _ _
    have e1 : 2 ^ (σ + 1) * (2 * q) = 2 ^ (σ + 1 + 1) * q := by ring
    have e2 : 2 ^ (σ + 1) * (2 * q + 1) = 2 ^ (σ + 1 + 1) * q + 2 ^ (σ + 1) := by ring
    have hhl : AscOn (ascClean σ (revLayer (σ + 1) u))
        (2 ^ (σ + 1 + 1) * q) (2 ^ (σ + 1 + 1) * q + 2 ^ (σ + 1)) := by
      have := ascClean_sorts σ (revLayer (σ + 1) u) (2 * q) (by rw [e1]; exact hl)
      rw [e1] at this
      exact this
    have hhu : AscOn (ascClean σ (revLayer (σ + 1) u))
        (2 ^ (σ + 1 + 1) * q + 2 ^ (σ + 1)) (2 ^ (σ + 1 + 1) * q + 2 ^ (σ + 1 + 1)) := by
      have hu' := hu
      rw [hglue] at hu'
      have := ascClean_sorts σ (revLayer (σ + 1) u) (2 * q + 1) (by
        rw [e2]
        have he3 : 2 ^ (σ + 1 + 1) * q + 2 ^ (σ + 1) + 2 ^ (σ + 1)
            = 2 ^ (σ + 1 + 1) * q + 2 ^ (σ + 1 + 1) := by
          have := pow_succ_two (σ + 1)
          omega
        rw [he3]
        exact hu')
      rw [e2] at this
      have he3 : 2 ^ (σ + 1 + 1) * q + 2 ^ (σ + 1) + 2 ^ (σ + 1)
          = 2 ^ (σ + 1 + 1) * q + 2 ^ (σ + 1 + 1) := by
        have := pow_succ_two (σ + 1)
        omega
      rw [he3] at this
      exact this
    have hle2 : (∀ x, 2 ^ (σ + 1 + 1) * q ≤ x → x < 2 ^ (σ + 1 + 1) * q + 2 ^ (σ + 1) →
          ascClean σ (revLayer (σ + 1) u) x = false)
        ∨ (∀ y, 2 ^ (σ + 1 + 1) * q + 2 ^ (σ + 1) ≤ y →
          y < 2 ^ (σ + 1 + 1) * q + 2 ^ (σ + 1 + 1) →
          ascClean σ (revLayer (σ + 1) u) y = true) := by
      rw [hglue] at hle
      rcases hle with hf | ht
      · left
        intro x h1 h2
        exact ascClean_const σ (revLayer (σ + 1) u) (2 * q) false
          (fun y hy1 hy2 => hf y (by omega) (by omega)) x (by omega) (by omega)
      · right
        intro y h1 h2
        have h2sig := pow_succ_two (σ + 1)
        exact ascClean_const σ (revLayer (σ + 1) u) (2 * q + 1) true
          (fun z hz1 hz2 => ht z (by omega) (by omega)) y (by omega) (by omega)
    exact ascOn_glue hhl hhu hle2

theorem cpuNet_asc_bool : ∀ (s : ℕ) (v : ℕ → Bool) (q : ℕ),
    AscOn (cpuNet s v) (2 ^ s * q) (2 ^ s * q + 2 ^ s) := by
  intro s
  induction s with
  | zero =>
    intro v q i j h1 h2 h3
    have : i = j := by
      norm_num at h1 h3
      omega
    rw [this]
  | succ s ih =>
    intro v q
    show AscOn (cpuStage s (cpuNet s v)) _ _
    have hasc1 := ih v (2 * q)
    have hasc2 := ih v (2 * q + 1)
    have e1 : 2 ^ s * (2 * q) = 2 ^ (s + 1) * q := by ring
    have e2 : 2 ^ s * (2 * q + 1) = 2 ^ (s + 1) * q + 2 ^ s := by ring
    rw [e1] at hasc1
    rw [e2] at hasc2
    have hasc2'' : AscOn (cpuNet s v)
        (2 ^ (s + 1) * q + 2 ^ s) (2 ^ (s + 1) * q + 2 ^ (s + 1)) := by
      have he : 2 ^ (s + 1) * q + 2 ^ s + 2 ^ s = 2 ^ (s + 1) * q + 2 ^ (s + 1) := by
        have := pow_succ_two s
        omega
      rw [← he]
      exact hasc2
    exact revStage_sorts s (cpuNet s v) q hasc1 hasc2''

/-- One device stage sorts a direction block whose halves are sorted
ascending then descending, in the direction given by the block's parity. -/
theorem dirStage_sorts (s : ℕ) (u : ℕ → Bool) (q : ℕ)
    (hasc : AscOn u (2 ^ (s + 1) * q) (2 ^ (s + 1) * q + 2 ^ s))
    (hdesc : DescOn u (2 ^ (s + 1) * q + 2 ^ s) (2 ^ (s + 1) * q + 2 ^ (s + 1))) :
    (q % 2 = 0 → AscOn (naiveStage s u) (2 ^ (s + 1) * q) (2 ^ (s + 1) * q + 2 ^ (s + 1)))
    ∧ (q % 2 = 1 → DescOn (naiveStage s u) (2 ^ (s + 1) * q) (2 ^ (s + 1) * q + 2 ^ (s + 1))) := by
  have hmov : MovOn u (2 ^ (s + 1) * q) (2 ^ (s + 1) * q + 2 ^ (s + 1)) :=
    Or.inl (mountainOn_of_asc_desc hasc hdesc)
  constructor
  · intro hq
    exact ascOn_congr (dirSteps_asc_block s u q le_rfl hq) (ascClean_sorts s u q hmov)
  · intro hq
    exact descOn_congr (dirSteps_desc_block s u q le_rfl hq) (descClean_sorts s u q hmov)

theorem naiveNet_dir_bool : ∀ (s : ℕ) (v : ℕ → Bool) (q : ℕ),
    (q % 2 = 0 → AscOn (naiveNet s v) (2 ^ s * q) (2 ^ s * q + 2 ^ s))
    ∧ (q % 2 = 1 → DescOn (naiveNet s v) (2 ^ s * q) (2 ^ s * q + 2 ^ s)) := by
  intro s
  induction s with
  | zero =>
    intro v q
    constructor
    · intro _ i j h1 h2 h3
      have : i = j := by
        norm_num at h1 h3
        omega
      rw [this]
    · intro _ i j h1 h2 h3
      have : i = j := by
        norm_num at h1 h3
        omega
      rw [this]
  | succ s ih =>
    intro v q
    show (_ → AscOn (naiveStage s (naiveNet s v)) _ _) ∧ (_ → DescOn (naiveStage s (naiveNet s v)) _ _)
    have hasc := (ih v (2 * q)).1 (by omega)
    have hdesc := (ih v (2 * q + 1)).2 (by omega)
    have e1 : 2 ^ s * (2 * q) = 2 ^ (s + 1) * q := by ring
    have e2 : 2 ^ s * (2 * q + 1) = 2 ^ (s + 1) * q + 2 ^ s := by ring
    rw [e1] at hasc
    rw [e2] at hdesc
    have hdesc' : DescOn (naiveNet s v)
        (2 ^ (s + 1) * q + 2 ^ s) (2 ^ (s + 1) * q + 2 ^ (s + 1)) := by
      have he : 2 ^ (s + 1) * q + 2 ^ s + 2 ^ s = 2 ^ (s + 1) * q + 2 ^ (s + 1) := by
        have := pow_succ_two s
        omega
      rw [← he]
      exact hdesc
    exact dirStage_sorts s (naiveNet s v) q hasc hdesc'

/-! ## Executor layers are the abstract layers -/

theorem execute_step_abs (size s t : ℕ) (v : ℕ → α) (hdvd : 2 ^ (t + 1) ∣ size)
    {x : ℕ} (hx : x < size) :
    execute_step size s t v x = (if s = t then revLayer t v x else ascLayer t v x) := by
  rw [execute_step_eq]
  have hB : (0 : ℕ) < 2 ^ (t + 1) := Nat.pos_pow_of_pos _ two_pos
  have h2t := pow_succ_two t
  have h3t := pow_succ_div_two t
  have hdm := Nat.div_add_mod x (2 ^ (t + 1))
  have hcomm : 2 ^ (t + 1) * (x / 2 ^ (t + 1)) = x / 2 ^ (t + 1) * 2 ^ (t + 1) :=
    Nat.mul_comm _ _
  have hmlt : x % 2 ^ (t + 1) < 2 ^ (t + 1) := Nat.mod_lt _ hB
  have hbk : x / 2 ^ (t + 1) < size / 2 ^ (t + 1) := Nat.div_lt_div_of_lt_of_dvd hdvd hx
  have hsnd : x / 2 ^ (t + 1) * 2 ^ (t + 1) + x % 2 ^ (t + 1) = x := by omega
  by_cases hlow : x % 2 ^ (t + 1) < 2 ^ t
  · have hmem := cpuPairs_mem size s t (x / 2 ^ (t + 1)) (x % 2 ^ (t + 1)) hbk hlow
    rw [hsnd] at hmem
    obtain ⟨h1, _⟩ := applyCmps_at _ v (cpuPairs_pairwise size s t) (cpuPairs_ne size s t) hmem
    rw [h1]
    by_cases hst : s = t
    · rw [if_pos hst]
      unfold revLayer
      rw [if_pos hlow]
      have hcalc : calc_j s t (2 ^ (t + 1)) (x % 2 ^ (t + 1))
          = 2 ^ (t + 1) - 1 - x % 2 ^ (t + 1) := by
        unfold calc_j
        rw [if_pos hst]
        omega
      rw [hcalc]
      simp [dlo]
    · rw [if_neg hst]
      unfold ascLayer
      rw [if_pos hlow]
      have hcalc : calc_j s t (2 ^ (t + 1)) (x % 2 ^ (t + 1)) = x % 2 ^ (t + 1) + 2 ^ t := by
        unfold calc_j
        rw [if_neg hst]
        omega
      rw [hcalc]
      have hidx : x / 2 ^ (t + 1) * 2 ^ (t + 1) + (x % 2 ^ (t + 1) + 2 ^ t) = x + 2 ^ t := by
        omega
      rw [hidx]
      simp [dlo]
  · push_neg at hlow
    by_cases hst : s = t
    · have hi : 2 ^ (t + 1) - 1 - x % 2 ^ (t + 1) < 2 ^ t := by omega
      have hmem := cpuPairs_mem size s t (x / 2 ^ (t + 1))
        (2 ^ (t + 1) - 1 - x % 2 ^ (t + 1)) hbk hi
      have hcalc : calc_j s t (2 ^ (t + 1)) (2 ^ (t + 1) - 1 - x % 2 ^ (t + 1))
          = x % 2 ^ (t + 1) := by
        unfold calc_j
        rw [if_pos hst]
        omega
      rw [hcalc, hsnd] at hmem
      obtain ⟨_, h4⟩ := applyCmps_at _ v (cpuPairs_pairwise size s t) (cpuPairs_ne size s t) hmem
      rw [h4]
      rw [if_pos hst]
      unfold revLayer
      rw [if_neg (by omega)]
      simp [dhi]
    · have hxt : 2 ^ t ≤ x := by omega
      have hi : x % 2 ^ (t + 1) - 2 ^ t < 2 ^ t := by omega
      have hmem := cpuPairs_mem size s t (x / 2 ^ (t + 1)) (x % 2 ^ (t + 1) - 2 ^ t) hbk hi
      have hcalc : calc_j s t (2 ^ (t + 1)) (x % 2 ^ (t + 1) - 2 ^ t) = x % 2 ^ (t + 1) := by
        unfold calc_j
        rw [if_neg hst]
        omega
      have hfst : x / 2 ^ (t + 1) * 2 ^ (t + 1) + (x % 2 ^ (t + 1) - 2 ^ t) = x - 2 ^ t := by
        omega
      rw [hcalc, hsnd, hfst] at hmem
      obtain ⟨_, h4⟩ := applyCmps_at _ v (cpuPairs_pairwise size s t) (cpuPairs_ne size s t) hmem
      rw [h4]
      rw [if_neg hst]
      unfold ascLayer
      rw [if_neg (by omega)]
      simp [dhi]

theorem naive_kernel_abs (s t size : ℕ) (ht : t ≤ s) (hdvd : 2 ^ (t + 1) ∣ size)
    (v : ℕ → α) {x : ℕ} (hx : x < size) :
    naive_bitonic_kernel s t size v x = dirLayer s t v x := by
  rw [naive_kernel_eq]
  have hB : (0 : ℕ) < 2 ^ (t + 1) := Nat.pos_pow_of_pos _ two_pos
  have h2t := pow_succ_two t
  have h3t := pow_succ_div_two t
  have hdm := Nat.div_add_mod x (2 ^ (t + 1))
  have hmlt : x % 2 ^ (t + 1) < 2 ^ (t + 1) := Nat.mod_lt _ hB
  have hexp : t + 1 + (s - t) = s + 1 := by omega
  have hmul : 2 ^ (t + 1) * 2 ^ (s - t) = 2 ^ (s + 1) := by
    rw [← pow_add, hexp]
  have hdd : x / 2 ^ (t + 1) / 2 ^ (s - t) = x / 2 ^ (s + 1) := by
    rw [Nat.div_div_eq_div_mul, hmul]
  by_cases hlow : x % 2 ^ (t + 1) < 2 ^ t
  · have hmem := naivePairs_mem size s t x hx (by omega)
    obtain ⟨h1, _⟩ := applyCmps_at _ v (naivePairs_pairwise size s t)
      (naivePairs_ne size s t) hmem
    rw [h1]
    unfold dirLayer ascLayer descLayer
    have hB2 : x + 2 ^ (t + 1) / 2 = x + 2 ^ t := by omega
    rw [hB2]
    by_cases hinc : x / 2 ^ (s + 1) % 2 = 0
    · have hd : decide (x / 2 ^ (t + 1) / 2 ^ (s - t) % 2 = 0) = true :=
        decide_eq_true (by rw [hdd]; exact hinc)
      rw [hd, if_pos hinc, if_pos hlow]
      simp [dlo]
    · have hd : decide (x / 2 ^ (t + 1) / 2 ^ (s - t) % 2 = 0) = false :=
        decide_eq_false (by rw [hdd]; exact hinc)
      rw [hd, if_neg hinc, if_pos hlow]
      simp [dlo]
  · push_neg at hlow
    have hxt : 2 ^ t ≤ x := by omega
    have hxx : x - 2 ^ t = 2 ^ (t + 1) * (x / 2 ^ (t + 1)) + (x % 2 ^ (t + 1) - 2 ^ t) := by
      omega
    have hmod' : (x - 2 ^ t) % 2 ^ (t + 1) = x % 2 ^ (t + 1) - 2 ^ t := by
      rw [hxx, Nat.mul_add_mod]
      exact Nat.mod_eq_of_lt (by omega)
    have hdiv' : (x - 2 ^ t) / 2 ^ (t + 1) = x / 2 ^ (t + 1) := by
      rw [hxx, Nat.mul_add_div hB]
      have hz : (x % 2 ^ (t + 1) - 2 ^ t) / 2 ^ (t + 1) = 0 := Nat.div_eq_of_lt (by omega)
      omega
    have hmem := naivePairs_mem size s t (x - 2 ^ t) (by omega) (by omega)
    have hsnd2 : x - 2 ^ t + 2 ^ (t + 1) / 2 = x := by omega
    rw [hsnd2] at hmem
    obtain ⟨_, h4⟩ := applyCmps_at _ v (naivePairs_pairwise size s t)
      (naivePairs_ne size s t) hmem
    rw [h4]
    unfold dirLayer ascLayer descLayer
    have hdd2 : (x - 2 ^ t) / 2 ^ (t + 1) / 2 ^ (s - t) = x / 2 ^ (s + 1) := by
      rw [hdiv', hdd]
    by_cases hinc : x / 2 ^ (s + 1) % 2 = 0
    · have hd : decide ((x - 2 ^ t) / 2 ^ (t + 1) / 2 ^ (s - t) % 2 = 0) = true :=
        decide_eq_true (by rw [hdd2]; exact hinc)
      rw [hd, if_pos hinc, if_neg (by omega)]
      simp [dhi]
    · have hd : decide ((x - 2 ^ t) / 2 ^ (t + 1) / 2 ^ (s - t) % 2 = 0) = false :=
        decide_eq_false (by rw [hdd2]; exact hinc)
      rw [hd, if_neg hinc, if_neg (by omega)]
      simp [dhi]

/-- The fused local sub-layer equals the executed naive kernel layer whenever
the comparison block fits inside the segment: the local-index compare-swap
touches exactly the global cells `x`, `x + halflen`, and the direction is
taken from the global index in both. -/
theorem local_layer_eq_naive (segment_size s t size : ℕ)
    (hdvd : 2 ^ (t + 1) ∣ segment_size) (v : ℕ → α) :
    local_presort_layer segment_size s t size v = naive_bitonic_kernel s t size v := by
  unfold local_presort_layer naive_bitonic_kernel
  have hbody : (fun (w : ℕ → α) (global_i : ℕ) =>
      if global_i % segment_size <
          2 ^ (t + 1) * (global_i % segment_size / 2 ^ (t + 1)) + 2 ^ (t + 1) / 2 then
        cswapD (decide (global_i / 2 ^ (t + 1) / 2 ^ (s - t) % 2 = 0))
          (global_i / segment_size * segment_size + global_i % segment_size)
          (global_i / segment_size * segment_size +
            (global_i % segment_size + 2 ^ (t + 1) / 2)) w
      else w)
      = (fun (w : ℕ → α) (i : ℕ) =>
      if i < 2 ^ (t + 1) * (i / 2 ^ (t + 1)) + 2 ^ (t + 1) / 2 then
        cswapD (decide (i / 2 ^ (t + 1) / 2 ^ (s - t) % 2 = 0)) i (i + 2 ^ (t + 1) / 2) w
      else w) := by
    funext w g
    have hmm : g % segment_size % 2 ^ (t + 1) = g % 2 ^ (t + 1) := Nat.mod_mod_of_dvd g hdvd
    have e1 : g / segment_size * segment_size + g % segment_size = g := Nat.div_add_mod' g _
    have e2 : g / segment_size * segment_size + (g % segment_size + 2 ^ (t + 1) / 2)
        = g + 2 ^ (t + 1) / 2 := by omega
    have hda := Nat.div_add_mod (g % segment_size) (2 ^ (t + 1))
    have hdb := Nat.div_add_mod g (2 ^ (t + 1))
    have hguard : (g % segment_size <
        2 ^ (t + 1) * (g % segment_size / 2 ^ (t + 1)) + 2 ^ (t + 1) / 2)
        ↔ (g < 2 ^ (t + 1) * (g / 2 ^ (t + 1)) + 2 ^ (t + 1) / 2) := by omega
    rw [e1, e2, if_congr hguard rfl rfl]
  rw [hbody]

/-! ## Executor runs are the abstract networks on the container window -/

theorem revLayer_eqOn {v w : ℕ → α} {s a L : ℕ} (hda : 2 ^ (s + 1) ∣ a)
    (hdL : 2 ^ (s + 1) ∣ L) (h : EqOn v w a (a + L)) :
    EqOn (revLayer s v) (revLayer s w) a (a + L) := by
  intro x h1 h2
  have hB : (0 : ℕ) < 2 ^ (s + 1) := Nat.pos_pow_of_pos _ two_pos
  have h2s := pow_succ_two s
  have hdm := Nat.div_add_mod x (2 ^ (s + 1))
  have hmlt : x % 2 ^ (s + 1) < 2 ^ (s + 1) := Nat.mod_lt _ hB
  have hge := block_start_ge hB hda h1
  have hhi := block_partner_hi hB (Nat.dvd_add hda hdL) h2
  have hcomm : 2 ^ (s + 1) * (x / 2 ^ (s + 1)) = x / 2 ^ (s + 1) * 2 ^ (s + 1) :=
    Nat.mul_comm _ _
  unfold revLayer
  by_cases hx : x % 2 ^ (s + 1) < 2 ^ s
  · rw [if_pos hx, if_pos hx, h x h1 h2,
      h (x / 2 ^ (s + 1) * 2 ^ (s + 1) + (2 ^ (s + 1) - 1 - x % 2 ^ (s + 1)))
        (by omega) (by omega)]
  · rw [if_neg hx, if_neg hx, h x h1 h2,
      h (x / 2 ^ (s + 1) * 2 ^ (s + 1) + (2 ^ (s + 1) - 1 - x % 2 ^ (s + 1)))
        (by omega) (by omega)]

theorem ascLayer_eqOn0 {v w : ℕ → α} {t n : ℕ} (hdn : 2 ^ (t + 1) ∣ n)
    (h : EqOn v w 0 n) : EqOn (ascLayer t v) (ascLayer t w) 0 n := by
  have h' : EqOn v w 0 (0 + n) := by rw [Nat.zero_add]; exact h
  have hc := ascLayer_eqOn (dvd_zero _) hdn h'
  rw [Nat.zero_add] at hc
  exact hc

theorem revLayer_eqOn0 {v w : ℕ → α} {s n : ℕ} (hdn : 2 ^ (s + 1) ∣ n)
    (h : EqOn v w 0 n) : EqOn (revLayer s v) (revLayer s w) 0 n := by
  have h' : EqOn v w 0 (0 + n) := by rw [Nat.zero_add]; exact h
  have hc := revLayer_eqOn (dvd_zero _) hdn h'
  rw [Nat.zero_add] at hc
  exact hc

theorem dirLayer_eqOn0 {v w : ℕ → α} {s t n : ℕ} (hdn : 2 ^ (t + 1) ∣ n)
    (h : EqOn v w 0 n) : EqOn (dirLayer s t v) (dirLayer s t w) 0 n := by
  have h' : EqOn v w 0 (0 + n) := by rw [Nat.zero_add]; exact h
  have hc := dirLayer_eqOn (s := s) (dvd_zero _) hdn h'
  rw [Nat.zero_add] at hc
  exact hc

theorem cpu_steps_abs : ∀ (t : ℕ) {s size : ℕ} (v w : ℕ → α), t < s → 2 ^ (s + 1) ∣ size →
    EqOn v w 0 size →
    EqOn ((List.range (t + 1)).foldl (fun u temp => execute_step size s (t - temp) u) v)
      (ascClean t w) 0 size := by
  intro t
  induction t with
  | zero =>
    intro s size v w hts hdvd h
    have hd1 : (2 : ℕ) ^ (0 + 1) ∣ size := (pow_dvd_pow 2 (by omega)).trans hdvd
    show EqOn ((List.range 1).foldl _ v) (ascLayer 0 w) 0 size
    rw [show List.range 1 = [0] from rfl, List.foldl_cons, List.foldl_nil]
    have h1 : EqOn (execute_step size s 0 v) (ascLayer 0 v) 0 size := by
      intro x hx1 hx2
      have := execute_step_abs size s 0 v hd1 hx2
      rw [if_neg (by omega)] at this
      exact this
    exact h1.trans (ascLayer_eqOn0 hd1 h)
  | succ t ih =>
    intro s size v w hts hdvd h
    have hd1 : (2 : ℕ) ^ (t + 1 + 1) ∣ size := (pow_dvd_pow 2 (by omega)).trans hdvd
    rw [List.range_succ_eq_map, List.foldl_cons, List.foldl_map]
    have hfe : (fun (u : ℕ → α) temp => execute_step size s (t + 1 - Nat.succ temp) u)
        = (fun (u : ℕ → α) temp => execute_step size s (t - temp) u) := by
      funext u temp
      have he : t + 1 - Nat.succ temp = t - temp := by omega
      rw [he]
    rw [hfe]
    have hstep : EqOn (execute_step size s (t + 1 - 0) v) (ascLayer (t + 1) w) 0 size := by
      have h1 : EqOn (execute_step size s (t + 1) v) (ascLayer (t + 1) v) 0 size := by
        intro x hx1 hx2
        have := execute_step_abs size s (t + 1) v hd1 hx2
        rw [if_neg (by omega)] at this
        exact this
      exact h1.trans (ascLayer_eqOn0 hd1 h)
    show EqOn ((List.range (t + 1)).foldl _ (execute_step size s (t + 1 - 0) v))
      (ascClean t (ascLayer (t + 1) w)) 0 size
    exact ih (execute_step size s (t + 1 - 0) v) (ascLayer (t + 1) w)
      (by omega) hdvd hstep

theorem cpu_stage_abs {size : ℕ} (s : ℕ) (v w : ℕ → α) (hdvd : 2 ^ (s + 1) ∣ size)
    (h : EqOn v w 0 size) :
    EqOn ((List.range (s + 1)).foldl (fun u temp => execute_step size s (s - temp) u) v)
      (cpuStage s w) 0 size := by
  cases s with
  | zero =>
    show EqOn ((List.range 1).foldl _ v) (revLayer 0 w) 0 size
    rw [show List.range 1 = [0] from rfl, List.foldl_cons, List.foldl_nil]
    have h1 : EqOn (execute_step size 0 (0 - 0) v) (revLayer 0 v) 0 size := by
      intro x hx1 hx2
      have := execute_step_abs size 0 0 v hdvd hx2
      rw [if_pos rfl] at this
      exact this
    exact h1.trans (revLayer_eqOn0 hdvd h)
  | succ σ =>
    rw [List.range_succ_eq_map, List.foldl_cons, List.foldl_map]
    have hfe : (fun (u : ℕ → α) temp => execute_step size (σ + 1) (σ + 1 - Nat.succ temp) u)
        = (fun (u : ℕ → α) temp => execute_step size (σ + 1) (σ - temp) u) := by
      funext u temp
      have he : σ + 1 - Nat.succ temp = σ - temp := by omega
      rw [he]
    rw [hfe]
    have hstep : EqOn (execute_step size (σ + 1) (σ + 1 - 0) v) (revLayer (σ + 1) w) 0 size := by
      have h1 : EqOn (execute_step size (σ + 1) (σ + 1) v) (revLayer (σ + 1) v) 0 size := by
        intro x hx1 hx2
        have := execute_step_abs size (σ + 1) (σ + 1) v hdvd hx2
        rw [if_pos rfl] at this
        exact this
      exact h1.trans (revLayer_eqOn0 hdvd h)
    show EqOn ((List.range (σ + 1)).foldl _ (execute_step size (σ + 1) (σ + 1 - 0) v))
      (ascClean σ (revLayer (σ + 1) w)) 0 size
    exact cpu_steps_abs σ (execute_step size (σ + 1) (σ + 1 - 0) v) (revLayer (σ + 1) w)
      (by omega) hdvd hstep

theorem cpu_run_abs (κ : ℕ) (v : ℕ → α) : EqOn (cpu_run (2 ^ κ) v) (cpuNet κ v) 0 (2 ^ κ) := by
  have key : ∀ s, s ≤ κ →
      EqOn ((List.range s).foldl (fun u stage =>
        (List.range (stage + 1)).foldl (fun u2 temp =>
          execute_step (2 ^ κ) stage (stage - temp) u2) u) v)
        (cpuNet s v) 0 (2 ^ κ) := by
    intro s
    induction s with
    | zero => exact fun _ x h1 h2 => rfl
    | succ s ih =>
      intro hs
      rw [List.range_succ, List.foldl_append, List.foldl_cons, List.foldl_nil]
      exact cpu_stage_abs s _ (cpuNet s v) (pow_dvd_pow 2 (by omega)) (ih (by omega))
  have hk := key κ le_rfl
  unfold cpu_run
  rw [countr_zero_pow]
  exact hk

theorem naive_steps_abs : ∀ (t : ℕ) {s size : ℕ} (v w : ℕ → α), t ≤ s → 2 ^ (s + 1) ∣ size →
    EqOn v w 0 size →
    EqOn ((List.range (t + 1)).foldl (fun u temp => naive_bitonic_kernel s (t - temp) size u) v)
      (dirSteps s t w) 0 size := by
  intro t
  induction t with
  | zero =>
    intro s size v w hts hdvd h
    have hd1 : (2 : ℕ) ^ (0 + 1) ∣ size := (pow_dvd_pow 2 (by omega)).trans hdvd
    show EqOn ((List.range 1).foldl _ v) (dirLayer s 0 w) 0 size
    rw [show List.range 1 = [0] from rfl, List.foldl_cons, List.foldl_nil]
    have h1 : EqOn (naive_bitonic_kernel s (0 - 0) size v) (dirLayer s 0 v) 0 size :=
      fun x hx1 hx2 => naive_kernel_abs s 0 size (by omega) hd1 v hx2
    exact h1.trans (dirLayer_eqOn0 hd1 h)
  | succ t ih =>
    intro s size v w hts hdvd h
    have hd1 : (2 : ℕ) ^ (t + 1 + 1) ∣ size := (pow_dvd_pow 2 (by omega)).trans hdvd
    rw [List.range_succ_eq_map, List.foldl_cons, List.foldl_map]
    have hfe : (fun (u : ℕ → α) temp => naive_bitonic_kernel s (t + 1 - Nat.succ temp) size u)
        = (fun (u : ℕ → α) temp => naive_bitonic_kernel s (t - temp) size u) := by
      funext u temp
      have he : t + 1 - Nat.succ temp = t - temp := by omega
      rw [he]
    rw [hfe]
    have hstep : EqOn (naive_bitonic_kernel s (t + 1 - 0) size v) (dirLayer s (t + 1) w)
        0 size := by
      have h1 : EqOn (naive_bitonic_kernel s (t + 1) size v) (dirLayer s (t + 1) v) 0 size :=
        fun x hx1 hx2 => naive_kernel_abs s (t + 1) size hts hd1 v hx2
      exact h1.trans (dirLayer_eqOn0 hd1 h)
    show EqOn ((List.range (t + 1)).foldl _ (naive_bitonic_kernel s (t + 1 - 0) size v))
      (dirSteps s t (dirLayer s (t + 1) w)) 0 size
    exact ih (naive_bitonic_kernel s (t + 1 - 0) size v) (dirLayer s (t + 1) w)
      (by omega) hdvd hstep

theorem naive_run_abs (κ : ℕ) (v : ℕ → α) :
    EqOn (naive_bitonic_run (2 ^ κ) v) (naiveNet κ v) 0 (2 ^ κ) := by
  have key : ∀ s, s ≤ κ →
      EqOn ((List.range s).foldl (fun u stage =>
        (List.range (stage + 1)).foldl (fun u2 temp =>
          naive_bitonic_kernel stage (stage - temp) (2 ^ κ) u2) u) v)
        (naiveNet s v) 0 (2 ^ κ) := by
    intro s
    induction s with
    | zero => exact fun _ x h1 h2 => rfl
    | succ s ih =>
      intro hs
      rw [List.range_succ, List.foldl_append, List.foldl_cons, List.foldl_nil]
      show EqOn ((List.range (s + 1)).foldl _ _) (naiveStage s (naiveNet s v)) 0 (2 ^ κ)
      exact naive_steps_abs s _ (naiveNet s v) le_rfl (pow_dvd_pow 2 (by omega)) (ih (by omega))
  have hk := key κ le_rfl
  unfold naive_bitonic_run
  rw [countr_zero_pow]
  exact hk

/-! ## The layers commute with monotone maps (for the zero-one principle) -/

theorem ascLayer_map {β : Type} [LinearOrder β] (f : α → β) (hf : Monotone f) (t : ℕ)
    (v : ℕ → α) : ascLayer t (fun y => f (v y)) = fun x => f (ascLayer t v x) := by
  funext x
  unfold ascLayer
  by_cases hx : x % 2 ^ (t + 1) < 2 ^ t
  · rw [if_pos hx, if_pos hx]
    exact (hf.map_min).symm
  · rw [if_neg hx, if_neg hx]
    exact (hf.map_max).symm

theorem descLayer_map {β : Type} [LinearOrder β] (f : α → β) (hf : Monotone f) (t : ℕ)
    (v : ℕ → α) : descLayer t (fun y => f (v y)) = fun x => f (descLayer t v x) := by
  funext x
  unfold descLayer
  by_cases hx : x % 2 ^ (t + 1) < 2 ^ t
  · rw [if_pos hx, if_pos hx]
    exact (hf.map_max).symm
  · rw [if_neg hx, if_neg hx]
    exact (hf.map_min).symm

theorem revLayer_map {β : Type} [LinearOrder β] (f : α → β) (hf : Monotone f) (s : ℕ)
    (v : ℕ → α) : revLayer s (fun y => f (v y)) = fun x => f (revLayer s v x) := by
  funext x
  unfold revLayer
  by_cases hx : x % 2 ^ (s + 1) < 2 ^ s
  · rw [if_pos hx, if_pos hx]
    exact (hf.map_min).symm
  · rw [if_neg hx, if_neg hx]
    exact (hf.map_max).symm

theorem dirLayer_map {β : Type} [LinearOrder β] (f : α → β) (hf : Monotone f) (s t : ℕ)
    (v : ℕ → α) : dirLayer s t (fun y => f (v y)) = fun x => f (dirLayer s t v x) := by
  funext x
  unfold dirLayer
  by_cases hx : x / 2 ^ (s + 1) % 2 = 0
  · rw [if_pos hx, if_pos hx, ascLayer_map f hf t v]
  · rw [if_neg hx, if_neg hx, descLayer_map f hf t v]

theorem ascClean_map {β : Type} [LinearOrder β] (f : α → β) (hf : Monotone f) :
    ∀ (t : ℕ) (v : ℕ → α), ascClean t (fun y => f (v y)) = fun x => f (ascClean t v x) := by
  intro t
  induction t with
  | zero =>
    intro v
    exact ascLayer_map f hf 0 v
  | succ t ih =>
    intro v
    show ascClean t (ascLayer (t + 1) (fun y => f (v y))) = _
    rw [ascLayer_map f hf (t + 1) v, ih (ascLayer (t + 1) v)]
    rfl

theorem dirSteps_map {β : Type} [LinearOrder β] (f : α → β) (hf : Monotone f) (s : ℕ) :
    ∀ (t : ℕ) (v : ℕ → α), dirSteps s t (fun y => f (v y)) = fun x => f (dirSteps s t v x) := by
  intro t
  induction t with
  | zero =>
    intro v
    exact dirLayer_map f hf s 0 v
  | succ t ih =>
    intro v
    show dirSteps s t (dirLayer s (t + 1) (fun y => f (v y))) = _
    rw [dirLayer_map f hf s (t + 1) v, ih (dirLayer s (t + 1) v)]
    rfl

theorem cpuStage_map {β : Type} [LinearOrder β] (f : α → β) (hf : Monotone f) (s : ℕ)
    (v : ℕ → α) : cpuStage s (fun y => f (v y)) = fun x => f (cpuStage s v x) := by
  cases s with
  | zero => exact revLayer_map f hf 0 v
  | succ σ =>
    show ascClean σ (revLayer (σ + 1) (fun y => f (v y))) = _
    rw [revLayer_map f hf (σ + 1) v, ascClean_map f hf σ (revLayer (σ + 1) v)]
    rfl

theorem cpuNet_map {β : Type} [LinearOrder β] (f : α → β) (hf : Monotone f) :
    ∀ (s : ℕ) (v : ℕ → α), cpuNet s (fun y => f (v y)) = fun x => f (cpuNet s v x) := by
  intro s
  induction s with
  | zero => intro v; rfl
  | succ s ih =>
    intro v
    show cpuStage s (cpuNet s (fun y => f (v y))) = _
    rw [ih v, cpuStage_map f hf s (cpuNet s v)]
    rfl

theorem naiveNet_map {β : Type} [LinearOrder β] (f : α → β) (hf : Monotone f) :
    ∀ (s : ℕ) (v : ℕ → α), naiveNet s (fun y => f (v y)) = fun x => f (naiveNet s v x) := by
  intro s
  induction s with
  | zero => intro v; rfl
  | succ s ih =>
    intro v
    show naiveStage s (naiveNet s (fun y => f (v y))) = _
    rw [ih v]
    exact dirSteps_map f hf s s (naiveNet s v)

theorem swapFun_comp (i j : ℕ) (v : ℕ → α) :
    (fun k => if k = i then v j else if k = j then v i else v k)
      = fun k => v (swapFun i j k) := by
  funext k
  unfold swapFun
  by_cases h1 : k = i
  · simp [h1]
  · by_cases h2 : k = j
    · by_cases h3 : j = i
      · simp [h1, h2, h3]
      · simp [h1, h2, h3]
    · simp [h1, h2]

theorem cswapD_cases (b : Bool) (i j : ℕ) (v : ℕ → α) :
    cswapD b i j v = (fun k => v (swapFun i j k)) ∨ cswapD b i j v = v := by
  unfold cswapD
  split
  · exact Or.inl (swapFun_comp i j v)
  · exact Or.inr rfl

theorem swapFun_involutive (i j a : ℕ) : swapFun i j (swapFun i j a) = a := by
  unfold swapFun
  split_ifs <;> omega

theorem swapFun_injective (i j : ℕ) : Function.Injective (swapFun i j) := by
  intro a b hab
  have ha := swapFun_involutive i j a
  have hb := swapFun_involutive i j b
  rw [← ha, ← hb, hab]

theorem swapFun_lt {n i j a : ℕ} (hi : i < n) (hj : j < n) :
    swapFun i j a < n ↔ a < n := by
  unfold swapFun
  split_ifs <;> omega

theorem count_range_eq (n b : ℕ) : (List.range n).count b = if b < n then 1 else 0 := by
  by_cases hb : b < n
  · rw [if_pos hb]
    have h1 : (List.range n).count b ≤ 1 :=
      List.nodup_iff_count_le_one.mp (List.nodup_range n) b
    have h2 : 0 < (List.range n).count b :=
      List.count_pos_iff.mpr (List.mem_range.mpr hb)
    omega
  · rw [if_neg hb]
    exact List.count_eq_zero_of_not_mem (fun hmem => hb (List.mem_range.mp hmem))

theorem map_swapFun_perm {n i j : ℕ} (hi : i < n) (hj : j < n) :
    ((List.range n).map (swapFun i j)).Perm (List.range n) := by
  rw [List.perm_iff_count]
  intro a
  have hinv := swapFun_involutive i j a
  have h1 : ((List.range n).map (swapFun i j)).count a
      = ((List.range n).map (swapFun i j)).count (swapFun i j (swapFun i j a)) := by
    rw [hinv]
  rw [h1, List.count_map_of_injective _ _ (swapFun_injective i j), count_range_eq,
    count_range_eq]
  rw [if_congr (swapFun_lt hi hj) rfl rfl]

theorem readOut_cswapD_perm {n : ℕ} (b : Bool) {i j : ℕ} (hi : i < n) (hj : j < n)
    (v : ℕ → α) : (readOut n (cswapD b i j v)).Perm (readOut n v) := by
  rcases cswapD_cases b i j v with h | h
  · rw [h]
    unfold readOut
    have hmm : (List.range n).map (fun k => v (swapFun i j k))
        = ((List.range n).map (swapFun i j)).map v := by
      rw [List.map_map]
      rfl
    rw [hmm]
    exact List.Perm.map v (map_swapFun_perm hi hj)
  · rw [h]

theorem applyCmps_perm : ∀ (cs : List (Bool × ℕ × ℕ)) (v : ℕ → α) (n : ℕ),
    (∀ c ∈ cs, c.2.1 < n ∧ c.2.2 < n) →
    (readOut n (applyCmps cs v)).Perm (readOut n v) := by
  intro cs
  induction cs with
  | nil => intro v n _; exact List.Perm.refl _
  | cons c cs ih =>
    intro v n h
    have hc := h c (List.mem_cons_self c cs)
    show (readOut n (applyCmps cs (cswapD c.1 c.2.1 c.2.2 v))).Perm _
    exact (ih _ n (fun c' hc' => h c' (List.mem_cons_of_mem c hc'))).trans
      (readOut_cswapD_perm c.1 hc.1 hc.2 v)

theorem cpuPairs_bounds {size s t : ℕ} (hdvd : 2 ^ (t + 1) ∣ size) :
    ∀ c ∈ cpuPairs size s t, c.2.1 < size ∧ c.2.2 < size := by
  intro c hc
  unfold cpuPairs at hc
  rw [List.mem_flatMap] at hc
  obtain ⟨k, hk, hc⟩ := hc
  rw [List.mem_map] at hc
  obtain ⟨i, hi, rfl⟩ := hc
  rw [List.mem_range] at hk hi
  rw [pow_succ_div_two] at hi
  have hb := calc_j_bounds s t i hi
  have h2 := pow_succ_two t
  have hmul : size / 2 ^ (t + 1) * 2 ^ (t + 1) = size := Nat.div_mul_cancel hdvd
  have hsucc : (k + 1) * 2 ^ (t + 1) ≤ size / 2 ^ (t + 1) * 2 ^ (t + 1) :=
    Nat.mul_le_mul_right _ (by omega)
  have hdist : (k + 1) * 2 ^ (t + 1) = k * 2 ^ (t + 1) + 2 ^ (t + 1) := by ring
  exact ⟨by dsimp only; omega, by dsimp only; omega⟩

theorem naivePairs_bounds {size s t : ℕ} (hdvd : 2 ^ (t + 1) ∣ size) :
    ∀ c ∈ naivePairs size s t, c.2.1 < size ∧ c.2.2 < size := by
  intro c hc
  unfold naivePairs at hc
  rw [List.mem_map] at hc
  obtain ⟨g, hg, rfl⟩ := hc
  rw [List.mem_filter, List.mem_range] at hg
  have hgu := of_decide_eq_true hg.2
  have hB : (0 : ℕ) < 2 ^ (t + 1) := Nat.pos_pow_of_pos _ two_pos
  have h2 := pow_succ_two t
  have hdm := Nat.div_add_mod g (2 ^ (t + 1))
  have hhi := block_partner_hi hB hdvd hg.1
  have hcomm : 2 ^ (t + 1) * (g / 2 ^ (t + 1)) = g / 2 ^ (t + 1) * 2 ^ (t + 1) :=
    Nat.mul_comm _ _
  exact ⟨by dsimp only; omega, by dsimp only; omega⟩

theorem cpuLayers_step_bound {κ : ℕ} : ∀ p ∈ cpuLayers κ, p.2 < κ := by
  intro p hp
  unfold cpuLayers at hp
  rw [List.mem_flatMap] at hp
  obtain ⟨stage, hstage, hp⟩ := hp
  rw [List.mem_map] at hp
  obtain ⟨temp, _, rfl⟩ := hp
  rw [List.mem_range] at hstage
  dsimp only
  omega

theorem foldl_execute_perm (κ : ℕ) : ∀ (L : List (ℕ × ℕ)) (v : ℕ → α),
    (∀ p ∈ L, p.2 < κ) →
    (readOut (2 ^ κ) (L.foldl (fun w p => execute_step (2 ^ κ) p.1 p.2 w) v)).Perm
      (readOut (2 ^ κ) v) := by
  intro L
  induction L with
  | nil => intro v _; exact List.Perm.refl _
  | cons p L ih =>
    intro v h
    have hp := h p (List.mem_cons_self p L)
    have hdvd : (2 : ℕ) ^ (p.2 + 1) ∣ 2 ^ κ := pow_dvd_pow 2 (by omega)
    have hlayer : (readOut (2 ^ κ) (execute_step (2 ^ κ) p.1 p.2 v)).Perm
        (readOut (2 ^ κ) v) := by
      rw [execute_step_eq]
      exact applyCmps_perm _ v _ (cpuPairs_bounds hdvd)
    show (readOut (2 ^ κ) (L.foldl _ (execute_step (2 ^ κ) p.1 p.2 v))).Perm _
    exact (ih _ (fun p' hp' => h p' (List.mem_cons_of_mem p hp'))).trans hlayer

theorem cpu_run_perm (κ : ℕ) (v : ℕ → α) :
    (readOut (2 ^ κ) (cpu_run (2 ^ κ) v)).Perm (readOut (2 ^ κ) v) := by
  rw [cpu_run_eq_layers, countr_zero_pow]
  exact foldl_execute_perm κ (cpuLayers κ) v cpuLayers_step_bound

theorem naive_run_eq_layers (size : ℕ) (v : ℕ → α) :
    naive_bitonic_run size v
      = (cpuLayers (countr_zero size)).foldl
          (fun w p => naive_bitonic_kernel p.1 p.2 size w) v := by
  unfold naive_bitonic_run cpuLayers
  rw [foldl_flat]
  simp only [List.foldl_map]

theorem foldl_naive_perm (κ : ℕ) : ∀ (L : List (ℕ × ℕ)) (v : ℕ → α),
    (∀ p ∈ L, p.2 < κ) →
    (readOut (2 ^ κ) (L.foldl (fun w p => naive_bitonic_kernel p.1 p.2 (2 ^ κ) w) v)).Perm
      (readOut (2 ^ κ) v) := by
  intro L
  induction L with
  | nil => intro v _; exact List.Perm.refl _
  | cons p L ih =>
    intro v h
    have hp := h p (List.mem_cons_self p L)
    have hdvd : (2 : ℕ) ^ (p.2 + 1) ∣ 2 ^ κ := pow_dvd_pow 2 (by omega)
    have hlayer : (readOut (2 ^ κ) (naive_bitonic_kernel p.1 p.2 (2 ^ κ) v)).Perm
        (readOut (2 ^ κ) v) := by
      rw [naive_kernel_eq]
      exact applyCmps_perm _ v _ (naivePairs_bounds hdvd)
    show (readOut (2 ^ κ) (L.foldl _ (naive_bitonic_kernel p.1 p.2 (2 ^ κ) v))).Perm _
    exact (ih _ (fun p' hp' => h p' (List.mem_cons_of_mem p hp'))).trans hlayer

theorem naive_run_perm (κ : ℕ) (v : ℕ → α) :
    (readOut (2 ^ κ) (naive_bitonic_run (2 ^ κ) v)).Perm (readOut (2 ^ κ) v) := by
  rw [naive_run_eq_layers, countr_zero_pow]
  exact foldl_naive_perm κ (cpuLayers κ) v cpuLayers_step_bound

/-! ## Zero-one principle: the runs sort over any linear order -/

theorem cpu_run_asc (κ : ℕ) (v : ℕ → α) : AscOn (cpu_run (2 ^ κ) v) 0 (2 ^ κ) := by
  intro i j h1 h2 h3
  by_contra hlt
  push_neg at hlt
  have hf : Monotone (fun z => decide (cpu_run (2 ^ κ) v i ≤ z)) := by
    intro a b hab
    rw [bool_le_iff]
    intro ha
    exact decide_eq_true (le_trans (of_decide_eq_true ha) hab)
  have habs := cpu_run_abs κ v
  have hbool := cpuNet_asc_bool κ (fun z => decide (cpu_run (2 ^ κ) v i ≤ v z)) 0 i j
    (by omega) h2 (by omega)
  have hmap := cpuNet_map (fun z => decide (cpu_run (2 ^ κ) v i ≤ z)) hf κ v
  simp only [hmap] at hbool
  rw [← habs i h1 (by omega), ← habs j (by omega) h3] at hbool
  rw [bool_le_iff] at hbool
  have hle := of_decide_eq_true (hbool (decide_eq_true le_rfl))
  exact absurd hle (not_le.mpr hlt)

theorem naive_run_asc (κ : ℕ) (v : ℕ → α) :
    AscOn (naive_bitonic_run (2 ^ κ) v) 0 (2 ^ κ) := by
  intro i j h1 h2 h3
  by_contra hlt
  push_neg at hlt
  have hf : Monotone (fun z => decide (naive_bitonic_run (2 ^ κ) v i ≤ z)) := by
    intro a b hab
    rw [bool_le_iff]
    intro ha
    exact decide_eq_true (le_trans (of_decide_eq_true ha) hab)
  have habs := naive_run_abs κ v
  have hbool := (naiveNet_dir_bool κ
    (fun z => decide (naive_bitonic_run (2 ^ κ) v i ≤ v z)) 0).1 rfl i j
    (by omega) h2 (by omega)
  have hmap := naiveNet_map (fun z => decide (naive_bitonic_run (2 ^ κ) v i ≤ z)) hf κ v
  simp only [hmap] at hbool
  rw [← habs i h1 (by omega), ← habs j (by omega) h3] at hbool
  rw [bool_le_iff] at hbool
  have hle := of_decide_eq_true (hbool (decide_eq_true le_rfl))
  exact absurd hle (not_le.mpr hlt)

/-! ## From cell functions back to containers -/

theorem readOut_length (n : ℕ) (v : ℕ → α) : (readOut n v).length = n := by
  simp [readOut]

theorem readOut_ofList [Inhabited α] (l : List α) : readOut l.length (ofList l) = l := by
  apply List.ext_getElem
  · simp [readOut]
  · intro i h1 h2
    simp only [readOut, ofList, List.getElem_map, List.getElem_range]
    exact List.getD_eq_getElem l default h2

theorem sorted_readOut {n : ℕ} {v : ℕ → α} (h : AscOn v 0 n) :
    (readOut n v).Sorted (· ≤ ·) := by
  unfold readOut
  rw [List.Sorted, List.pairwise_map, List.pairwise_iff_getElem]
  intro i j hi hj hij
  rw [List.length_range] at hj
  simp only [List.getElem_range]
  exact h i j (Nat.zero_le i) (le_of_lt hij) hj

/-- The sequential executor succeeds on a valid length, permutes the
container and leaves it non-descending. -/
theorem cpu_sort_spec [Inhabited α] (l : List α) (h : ∃ k, 1 ≤ k ∧ l.length = 2 ^ k) :
    (cpu_bitonic_sort l).2 = none ∧ ((cpu_bitonic_sort l).1).Perm l
      ∧ ((cpu_bitonic_sort l).1).Sorted (· ≤ ·) := by
  have hval : popcount l.length = 1 ∧ 2 ≤ l.length := (valid_size_iff l.length).mpr h
  obtain ⟨k, hk1, hk2⟩ := h
  have hcond : ¬(popcount l.length ≠ 1 ∨ l.length < 2) := by omega
  unfold cpu_bitonic_sort
  rw [if_neg hcond]
  refine ⟨rfl, ?_, ?_⟩
  · show (readOut l.length (cpu_run l.length (ofList l))).Perm l
    have hp := cpu_run_perm k (ofList l)
    rw [← hk2] at hp
    rw [readOut_ofList l] at hp
    exact hp
  · show (readOut l.length (cpu_run l.length (ofList l))).Sorted _
    rw [hk2]
    exact sorted_readOut (cpu_run_asc k (ofList l))

/-- The naive device executor succeeds on a valid length, permutes the
container and leaves it non-descending. -/
theorem naive_sort_spec [Inhabited α] (l : List α) (h : ∃ k, 1 ≤ k ∧ l.length = 2 ^ k) :
    (naive_bitonic l).2 = none ∧ ((naive_bitonic l).1).Perm l
      ∧ ((naive_bitonic l).1).Sorted (· ≤ ·) := by
  have hval : popcount l.length = 1 ∧ 2 ≤ l.length := (valid_size_iff l.length).mpr h
  obtain ⟨k, hk1, hk2⟩ := h
  have hcond : ¬(popcount l.length ≠ 1 ∨ l.length < 2) := by omega
  unfold naive_bitonic
  rw [if_neg hcond]
  refine ⟨rfl, ?_, ?_⟩
  · show (readOut l.length (naive_bitonic_run l.length (ofList l))).Perm l
    have hp := naive_run_perm k (ofList l)
    rw [← hk2] at hp
    rw [readOut_ofList l] at hp
    exact hp
  · show (readOut l.length (naive_bitonic_run l.length (ofList l))).Sorted _
    rw [hk2]
    exact sorted_readOut (naive_run_asc k (ofList l))

/-! ## The claims about whole-sort behaviour -/

/-- C1: on every container whose length is a power of two and at least 2,
the sequential executor terminates without error with the container holding
the same multiset of elements arranged in non-descending order. -/
theorem C1_sequential_sort_correct [Inhabited α] (l : List α)
    (h : ∃ k, 1 ≤ k ∧ l.length = 2 ^ k) :
    (cpu_bitonic_sort l).2 = none ∧ ((cpu_bitonic_sort l).1).Perm l
      ∧ ((cpu_bitonic_sort l).1).Sorted (· ≤ ·) :=
  cpu_sort_spec l h

theorem C1_witness :
    (cpu_bitonic_sort ([3, 1, 2, 0] : List ℕ)).2 = none
    ∧ ((cpu_bitonic_sort ([3, 1, 2, 0] : List ℕ)).1).Perm [3, 1, 2, 0]
    ∧ ((cpu_bitonic_sort ([3, 1, 2, 0] : List ℕ)).1).Sorted (· ≤ ·) :=
  C1_sequential_sort_correct [3, 1, 2, 0] ⟨2, by decide, by decide⟩

/-- C9: on a valid length the sequential sort maps an already-sorted
container to itself, and sorting is idempotent. -/
theorem C9_sequential_sort_idempotent [Inhabited α] (l : List α)
    (h : ∃ k, 1 ≤ k ∧ l.length = 2 ^ k) :
    (l.Sorted (· ≤ ·) → cpu_bitonic_sort l = (l, none))
    ∧ cpu_bitonic_sort (cpu_bitonic_sort l).1 = ((cpu_bitonic_sort l).1, none) := by
  obtain ⟨hnone, hperm, hsort⟩ := cpu_sort_spec l h
  have hfix : ∀ m : List α, m.Sorted (· ≤ ·) → (∃ k, 1 ≤ k ∧ m.length = 2 ^ k) →
      cpu_bitonic_sort m = (m, none) := by
    intro m hm hmlen
    obtain ⟨hn2, hp2, hs2⟩ := cpu_sort_spec m hmlen
    have he : (cpu_bitonic_sort m).1 = m := List.eq_of_perm_of_sorted hp2 hs2 hm
    calc cpu_bitonic_sort m = ((cpu_bitonic_sort m).1, (cpu_bitonic_sort m).2) := rfl
      _ = (m, none) := by rw [he, hn2]
  refine ⟨fun hs => hfix l hs h, hfix _ hsort ?_⟩
  rw [hperm.length_eq]
  exact h

theorem C9_witness :
    (([0, 1, 2, 3] : List ℕ).Sorted (· ≤ ·) →
      cpu_bitonic_sort ([0, 1, 2, 3] : List ℕ) = ([0, 1, 2, 3], none))
    ∧ cpu_bitonic_sort (cpu_bitonic_sort ([0, 1, 2, 3] : List ℕ)).1
        = ((cpu_bitonic_sort ([0, 1, 2, 3] : List ℕ)).1, none) :=
  C9_sequential_sort_idempotent [0, 1, 2, 3] ⟨2, by decide, by decide⟩

/-- C5 (amended): the sequential and naive device executors agree on every
container; the local-segment executor does not join them, as its fused
dispatch stops one stage short (see the counterexample below). -/
theorem C5_cross_executor_agreement [Inhabited α] (l : List α) :
    naive_bitonic l = cpu_bitonic_sort l := by
  by_cases hc : popcount l.length ≠ 1 ∨ l.length < 2
  · unfold naive_bitonic cpu_bitonic_sort
    rw [if_pos hc, if_pos hc]
  · push_neg at hc
    have hex : ∃ k, 1 ≤ k ∧ l.length = 2 ^ k := (valid_size_iff l.length).mp ⟨hc.1, hc.2⟩
    obtain ⟨hn1, hp1, hs1⟩ := naive_sort_spec l hex
    obtain ⟨hn2, hp2, hs2⟩ := cpu_sort_spec l hex
    have he : (naive_bitonic l).1 = (cpu_bitonic_sort l).1 :=
      List.eq_of_perm_of_sorted (hp1.trans hp2.symm) hs1 hs2
    calc naive_bitonic l = ((naive_bitonic l).1, (naive_bitonic l).2) := rfl
      _ = ((cpu_bitonic_sort l).1, (cpu_bitonic_sort l).2) := by rw [he, hn1, hn2]
      _ = cpu_bitonic_sort l := rfl

theorem C5_counterexample :
    cpu_bitonic_sort ([1, 0, 3, 2] : List ℕ) = ([0, 1, 2, 3], none)
    ∧ local_bitonic 4 ([1, 0, 3, 2] : List ℕ) = ([0, 1, 3, 2], none)
    ∧ local_bitonic 4 ([1, 0, 3, 2] : List ℕ) ≠ cpu_bitonic_sort ([1, 0, 3, 2] : List ℕ) :=
  ⟨by decide, by decide, by decide⟩

/-- C3 (amended): the kernel layer executed for a host `(stage, step)` pair
computes `pow2 = 2 ^ (stage - step)` — not `2 ^ (step - stage)` — because
the host passes `(stage, step)` to the kernel's `(step, stage)` parameters;
the whole naive run is the fold of these amended layers over the host's
`(stage, step)` schedule. -/
theorem C3_naive_kernel_as_executed (stage step size : ℕ) (v : ℕ → α) :
    naive_bitonic_kernel stage step size v = naiveAmendedLayer stage step size v
    ∧ naive_bitonic_run size v
        = (cpuLayers (countr_zero size)).foldl
            (fun w p => naiveAmendedLayer p.1 p.2 size w) v := by
  refine ⟨rfl, ?_⟩
  rw [naive_run_eq_layers]
  rfl

theorem C3_counterexample :
    (1, 0) ∈ cpuLayers (countr_zero 4)
    ∧ readOut 4 (naive_bitonic_kernel 1 0 4 (ofList ([0, 1, 1, 2] : List ℕ))) = [0, 1, 1, 2]
    ∧ readOut 4 (naiveClaimLayer 1 0 4 (ofList ([0, 1, 1, 2] : List ℕ))) = [0, 1, 2, 1]
    ∧ readOut 4 (naive_bitonic_kernel 1 0 4 (ofList ([0, 1, 1, 2] : List ℕ)))
        ≠ readOut 4 (naiveClaimLayer 1 0 4 (ofList ([0, 1, 1, 2] : List ℕ))) :=
  ⟨by decide, by decide, by decide, by decide⟩

/-- C4 (amended): for `segment_size = 2 ^ localSteps` and `N = 2 ^ steps_n`
the local executor issues exactly one dispatch, but its fused stage range is
`[0, min (localSteps - 1) steps_n)`: the 32-bit subtraction `nfst - 1` in
the submit call loses one stage against the claimed `min localSteps steps_n`. -/
theorem C4_local_dispatch_range (localSteps steps_n : ℕ) (h1 : 1 ≤ localSteps)
    (h2 : localSteps < 4294967296) :
    local_dispatches (2 ^ localSteps) (2 ^ steps_n)
      = [(0, min (localSteps - 1) steps_n)] := by
  unfold local_dispatches
  rw [countr_zero_pow, countr_zero_pow]
  have hu : usub1 localSteps = localSteps - 1 := by
    unfold usub1
    omega
  simp only [hu]

theorem C4_witness :
    local_dispatches (2 ^ 2) (2 ^ 3) = [(0, min (2 - 1) 3)] :=
  C4_local_dispatch_range 2 3 (by decide) (by decide)

theorem C4_counterexample :
    local_dispatches (2 ^ 2) (2 ^ 3) = [(0, 1)]
    ∧ min 2 3 = 2
    ∧ (1 : ℕ) ≠ 2 :=
  ⟨by decide, by decide, by decide⟩

/-- C8: every comparator of a local sub-layer arises from a work item whose
direction is computed from the global index while the two accessed cells are
the work item's segment cells; that direction equals the naive kernel's
direction at the same layer and global index, and on aligned segments the
whole sub-layer equals the naive kernel layer. -/
theorem C8_direction_from_global_index (segment_size size step stage : ℕ) (v : ℕ → α) :
    (∀ c ∈ localPairs segment_size size step stage,
        ∃ g, g < size ∧ c = (local_increasing step stage g,
          g / segment_size * segment_size + g % segment_size,
          g / segment_size * segment_size + (g % segment_size + 2 ^ (stage + 1) / 2)))
    ∧ (∀ g, local_increasing step stage g = naive_increasing step stage g)
    ∧ (2 ^ (stage + 1) ∣ segment_size →
        local_presort_layer segment_size step stage size v
          = naive_bitonic_kernel step stage size v) := by
  refine ⟨?_, fun g => rfl, fun hdvd => local_layer_eq_naive segment_size step stage size hdvd v⟩
  intro c hc
  unfold localPairs at hc
  rw [List.mem_map] at hc
  obtain ⟨g, hg, rfl⟩ := hc
  rw [List.mem_filter, List.mem_range] at hg
  exact ⟨g, hg.1, rfl⟩

theorem C8_witness :
    local_increasing 1 0 6 = naive_increasing 1 0 6
    ∧ local_presort_layer 4 1 0 4 (ofList ([0, 1, 2, 3] : List ℕ))
        = naive_bitonic_kernel 1 0 4 (ofList ([0, 1, 2, 3] : List ℕ)) :=
  ⟨(C8_direction_from_global_index 4 4 1 0 (ofList ([0, 1, 2, 3] : List ℕ))).2.1 6,
    (C8_direction_from_global_index 4 4 1 0 (ofList ([0, 1, 2, 3] : List ℕ))).2.2 (by decide)⟩

end BitonicSpec
